import Mathlib

/-!
# odatasql: a shallow embedding of the OData-filter-to-SQL converter

This file embeds the tokenizer (`internal/tokenizer.go`), the sanitizer
utilities (`internal/util.go`), the recursive-descent parser
(`internal/parser.go`), the AST renderer (the `Node`/`ToSQL` definitions of
package `internal`), and the entry point `FilterToSQL` (`odatasql.go`).
The alternate sanitizer `validateAndSanitizeValue` of the restructured
parser package present in the repository is embedded as well, for
comparison with the wired pipeline.

Conventions of the embedding:
* Go strings are Lean `String`; byte-level scans act on `String.data`.
* `strings.ToLower` / character classes are embedded for the ASCII range
  (inputs to this library are ASCII filter text).
* `strconv.Atoi` / `strconv.ParseFloat` are embedded as recognizers for the
  decimal forms they accept (hexadecimal floats and digit-separator
  underscores, which no filter text here exercises, are omitted).
* The mutually recursive parser threads an explicit fuel parameter; the
  entry point supplies more fuel than any input can consume, and
  `PErr.fuelOut` marks the unreachable exhaustion case.
* `PErr.panicked` models a Go runtime panic: the one unguarded
  `p.current()` call reads `tokens[pos]` out of range when the parser is at
  the end of the input.
* Error values carry the Go error message; the `fmt.Errorf` context
  wrappers (`BuildAST`, `FilterToSQL`) add no information and are dropped.
-/

/-- The single-quote character, written by code point to keep source text plain. -/
def squote : Char := Char.ofNat 39

/-- A one-character string holding a single quote. -/
def qstr : String := String.mk [squote]

/-- ASCII lower-casing of one character (embedding of `strings.ToLower` on ASCII). -/
def asciiLowerChar (c : Char) : Char :=
  if 65 ≤ c.toNat ∧ c.toNat ≤ 90 then Char.ofNat (c.toNat + 32) else c

/-- ASCII lower-casing of a string. -/
def asciiLower (s : String) : String := String.mk (s.data.map asciiLowerChar)

/-- ASCII decimal digit test. -/
def isDigitChar (c : Char) : Bool := 48 ≤ c.toNat && c.toNat ≤ 57

/-- Whitespace as `internal/tokenizer.go` `isWhitespace` recognizes it. -/
def isWhitespaceChar (c : Char) : Bool :=
  c = ' ' || c = Char.ofNat 9 || c = Char.ofNat 10 || c = Char.ofNat 13

/-- `strings.TrimSpace` (ASCII whitespace). -/
def goTrimSpace (s : String) : String :=
  String.mk (((s.data.dropWhile (isWhitespaceChar ·)).reverse.dropWhile
    (isWhitespaceChar ·)).reverse)

/-- `strconv.Atoi` as a recognizer: an optional sign followed by one or more
decimal digits (integer range is not exceeded by any input considered here). -/
def goAtoiOk (s : String) : Bool :=
  let cs := s.data
  let body := match cs with
    | c :: t => if c = '+' ∨ c = '-' then t else cs
    | [] => []
  !body.isEmpty && body.all (isDigitChar ·)

/-- Drop one leading sign character, as `strconv.ParseFloat` does. -/
def dropSign (cs : List Char) : List Char :=
  match cs with
  | c :: t => if c = '+' ∨ c = '-' then t else cs
  | [] => []

/-- Exponent suffix of a decimal float: empty, or `e`/`E`, an optional sign
and one or more digits ending the string. -/
def expPartOk (cs : List Char) : Bool :=
  match cs with
  | [] => true
  | c :: t =>
    if c = 'e' ∨ c = 'E' then
      let t' := dropSign t
      !t'.isEmpty && t'.all (isDigitChar ·)
    else false

/-- Mantissa-and-exponent body of a decimal float (sign already removed):
digits, an optional point with more digits, at least one digit in all, then
an optional exponent. -/
def decBodyOk (cs : List Char) : Bool :=
  let d1 := cs.takeWhile (isDigitChar ·)
  let r1 := cs.dropWhile (isDigitChar ·)
  match r1 with
  | c :: r2 =>
    if c = '.' then
      let d2 := r2.takeWhile (isDigitChar ·)
      let r3 := r2.dropWhile (isDigitChar ·)
      (!d1.isEmpty || !d2.isEmpty) && expPartOk r3
    else !d1.isEmpty && expPartOk r1
  | [] => !d1.isEmpty

/-- `strconv.ParseFloat` as a recognizer: the case-insensitive special forms
`inf`/`infinity`/`nan` with optional sign, or a signed decimal number. -/
def parseFloatOk (s : String) : Bool :=
  let l := asciiLower s
  if l = "inf" ∨ l = "+inf" ∨ l = "-inf" ∨ l = "infinity" ∨ l = "+infinity" ∨
      l = "-infinity" ∨ l = "nan" ∨ l = "+nan" ∨ l = "-nan" then true
  else decBodyOk (dropSign s.data)

/-! ## `internal/util.go` -/

/-- The fixed reserved-SQL-keyword list of `internal/util.go`. -/
def reservedSQLKeywords : List String :=
  ["select", "insert", "update", "delete", "drop", "alter",
   "from", "where", "join", "order", "group", "having",
   "limit", "offset", "union", "except", "intersect"]

/-- `IsReservedSQLKeyword`: membership of the lower-cased text in the fixed set. -/
def IsReservedSQLKeyword (s : String) : Bool :=
  reservedSQLKeywords.contains (asciiLower s)

/-- The replacement pass of `camelToSnakeRegex` (`([a-z0-9])([A-Z])` to
`${1}_${2}`): the two character classes are disjoint, so non-overlapping
regex replacement inserts `_` between every lower-or-digit/upper pair. -/
def snakeInsert : List Char → List Char
  | a :: b :: t =>
    if (97 ≤ a.toNat ∧ a.toNat ≤ 122 ∨ 48 ≤ a.toNat ∧ a.toNat ≤ 57) ∧
        (65 ≤ b.toNat ∧ b.toNat ≤ 90) then
      a :: '_' :: snakeInsert (b :: t)
    else a :: snakeInsert (b :: t)
  | [a] => [a]
  | [] => []

/-- `ToSnakeCase`: underscore insertion at lower-or-digit/upper boundaries,
then lower-casing of the whole string. -/
def ToSnakeCase (s : String) : String :=
  asciiLower (String.mk (snakeInsert s.data))

/-- `strings.Trim(v, cutset-of-single-quote)`: strip every leading and
trailing single quote. -/
def trimQuotes (s : String) : String :=
  String.mk (((s.data.dropWhile (· = squote)).reverse.dropWhile (· = squote)).reverse)

/-- `strings.ReplaceAll(v, quote, quote-quote)`: double every single quote. -/
def doubleQuotes (s : String) : String :=
  String.mk (s.data.flatMap (fun c => if c = squote then [squote, squote] else [c]))

/-- `SanitizeValue` of `internal/util.go`: numbers pass unchanged, the
lower-cased booleans and null pass unquoted, everything else is stripped of
surrounding quotes, has inner quotes doubled, and is wrapped in quotes.
It never fails. -/
def SanitizeValue (value : String) : String :=
  let v := goTrimSpace value
  if goAtoiOk v then v
  else if parseFloatOk v then v
  else
    let lower := asciiLower v
    if lower = "true" ∨ lower = "false" ∨ lower = "null" then lower
    else qstr ++ doubleQuotes (trimQuotes v) ++ qstr

/-- The substrings banned by the alternate sanitizer of the restructured
parser package. -/
def bannedPatterns : List String := [";", "--", "/*", "*/"]

/-- Whether `pat` occurs inside `hay` starting at some position. -/
def hasInfix (pat : List Char) : List Char → Bool
  | [] => pat.isEmpty
  | c :: t => pat.isPrefixOf (c :: t) || hasInfix pat t

/-- Substring containment (`strings.Contains`). -/
def containsSub (hay pat : String) : Bool := hasInfix pat.data hay.data

/-- `validateAndSanitizeValue` of the repository's restructured parser
package: like `SanitizeValue` but rejecting the banned substrings and
reserved SQL keywords before quoting. -/
def validateAndSanitizeValue (value : String) : Except String String :=
  let v := goTrimSpace value
  if goAtoiOk v then .ok v
  else if parseFloatOk v then .ok v
  else
    let lower := asciiLower v
    if bannedPatterns.any (fun p => containsSub lower p) then
      .error ("invalid input detected: " ++ v)
    else if IsReservedSQLKeyword lower then
      .error ("invalid input detected: " ++ v ++ " is a reserved SQL keyword")
    else if lower = "true" ∨ lower = "false" ∨ lower = "null" then .ok lower
    else .ok (qstr ++ doubleQuotes (trimQuotes v) ++ qstr)

/-! ## `internal/tokenizer.go` -/

/-- Token kinds of `internal/tokenizer.go`. `tLiteral` is referenced by the
parser's value check but defined outside the files present here; the
tokenizer never produces it. -/
inductive tokenType where
  | tIdentifier | tString | tNumber
  | tParenOpen | tParenClose | tComma
  | tOpIn | tOpNot | tOpAnd | tOpOr
  | tOpEq | tOpNe | tOpGt | tOpGe | tOpLt | tOpLe
  | tLiteral
deriving DecidableEq

open tokenType

/-- A token: a kind and its text. -/
structure token where
  typ : tokenType
  val : String
deriving DecidableEq

/-- The keyword table of the tokenizer. -/
def keywordLookup (w : String) : Option tokenType :=
  if w = "in" then some tOpIn
  else if w = "not" then some tOpNot
  else if w = "and" then some tOpAnd
  else if w = "or" then some tOpOr
  else if w = "eq" then some tOpEq
  else if w = "ne" then some tOpNe
  else if w = "gt" then some tOpGt
  else if w = "ge" then some tOpGe
  else if w = "lt" then some tOpLt
  else if w = "le" then some tOpLe
  else none

/-- `classifyWord`: keyword (case-insensitively, token text lower-cased),
else number if `strconv.ParseFloat` accepts it, else identifier. -/
def classifyWord (w : String) : token :=
  let lower := asciiLower w
  match keywordLookup lower with
  | some tt => ⟨tt, lower⟩
  | none => if parseFloatOk w then ⟨tNumber, w⟩ else ⟨tIdentifier, w⟩

/-- Delimiters ending a bare word. -/
def isDelimiterChar (c : Char) : Bool :=
  isWhitespaceChar c || c = '(' || c = ')' || c = ',' || c = squote

/-- Errors of the embedded pipeline. `panicked` is a Go runtime panic
(out-of-range slice index); `fuelOut` is the unreachable fuel-exhaustion
artifact of the embedding. -/
inductive PErr where
  | msg (s : String)
  | panicked
  | fuelOut
deriving DecidableEq

deriving instance DecidableEq for Except

/-- Body of `readQuotedString` after the opening quote: a doubled quote is
kept as one literal quote, a single closing quote ends the token (closing
quote kept), exhausting the input is an error. -/
def readQBody (acc : List Char) : List Char → Except PErr (List Char × List Char)
  | [] => .error (.msg "unclosed string literal")
  | c :: rest =>
    if c = squote then
      match rest with
      | c2 :: rest2 =>
        if c2 = squote then readQBody (acc ++ [squote]) rest2
        else .ok (acc ++ [squote], rest)
      | [] => .ok (acc ++ [squote], [])
    else readQBody (acc ++ [c]) rest

/-- `readQuotedString`: requires a leading quote and at least two
characters, keeps the opening quote, and reads the body. -/
def readQuotedString (cs : List Char) : Except PErr (String × List Char) :=
  match cs with
  | q :: rest =>
    if q ≠ squote ∨ rest.isEmpty then .error (.msg "invalid quoted string")
    else
      match readQBody [q] rest with
      | .error e => .error e
      | .ok (body, rem) => .ok (String.mk body, rem)
  | [] => .error (.msg "invalid quoted string")

/-- The tokenizer loop: skip whitespace, single-character tokens for the
parens and comma, quoted strings, and bare words classified by
`classifyWord`. Fuel decreases every iteration; each iteration consumes at
least one character, so the entry fuel below suffices. -/
def tokenizeFuel : Nat → List Char → Except PErr (List token)
  | 0, _ => .error .fuelOut
  | _, [] => .ok []
  | fuel + 1, c :: rest =>
    if isWhitespaceChar c then tokenizeFuel fuel rest
    else if c = '(' then
      (tokenizeFuel fuel rest).map (⟨tParenOpen, "("⟩ :: ·)
    else if c = ')' then
      (tokenizeFuel fuel rest).map (⟨tParenClose, ")"⟩ :: ·)
    else if c = ',' then
      (tokenizeFuel fuel rest).map (⟨tComma, ","⟩ :: ·)
    else if c = squote then
      match readQuotedString (c :: rest) with
      | .error e => .error e
      | .ok (str, rem) => (tokenizeFuel fuel rem).map (⟨tString, str⟩ :: ·)
    else
      let w := (c :: rest).takeWhile (fun ch => !isDelimiterChar ch)
      let rem := (c :: rest).dropWhile (fun ch => !isDelimiterChar ch)
      (tokenizeFuel fuel rem).map (classifyWord (String.mk w) :: ·)

/-- `tokenize`: trim, then scan. -/
def tokenize (s : String) : Except PErr (List token) :=
  let t := goTrimSpace s
  tokenizeFuel (t.data.length + 1) t.data

/-! ## AST and renderer (the `Node` definitions of package `internal`) -/

/-- SQL text of the binary operators. -/
def opAnd : String := "AND"

/-- SQL text of OR. -/
def opOr : String := "OR"

/-- The closed node family: binary AND/OR, NOT, a comparison condition, an
IN condition, and an author-written parenthesized group. -/
inductive Node where
  | binary (op : String) (left right : Node)
  | not (child : Node)
  | cond (field op value : String)
  | inn (field : String) (values : List String)
  | paren (child : Node)
deriving DecidableEq

/-- `ToSQL`: binary and NOT render their children one level deeper and wrap
themselves exactly when nested (`level > 0`); leaves ignore the level; a
`paren` node always prints one pair and restarts its child at level 0. -/
def Node.toSQL : Node → Nat → String
  | .binary op l r, lvl =>
    let ls := l.toSQL (lvl + 1)
    let rs := r.toSQL (lvl + 1)
    if lvl > 0 then "(" ++ ls ++ " " ++ op ++ " " ++ rs ++ ")"
    else ls ++ " " ++ op ++ " " ++ rs
  | .not c, lvl =>
    let cs := c.toSQL (lvl + 1)
    if lvl > 0 then "(NOT " ++ cs ++ ")" else "NOT " ++ cs
  | .cond f op v, _ => f ++ " " ++ op ++ " " ++ v
  | .inn f vs, _ => f ++ " IN (" ++ String.intercalate ", " vs ++ ")"
  | .paren c, _ => "(" ++ c.toSQL 0 ++ ")"

/-! ## `internal/parser.go` -/

/-- The fixed nesting limit. -/
def maxNestingDepth : Nat := 10

/-- The SQL operator table `opMapping`. -/
def opMapping (op : String) : String :=
  if op = "eq" then "="
  else if op = "ne" then "!="
  else if op = "gt" then ">"
  else if op = "ge" then ">="
  else if op = "lt" then "<"
  else "<="

/-- `isValidOperator`: membership in the comparison-keyword set. -/
def isValidOperator (op : String) : Bool :=
  op = "eq" || op = "ne" || op = "gt" || op = "ge" || op = "lt" || op = "le"

/-- The nesting-limit error message. -/
def msgNesting : String := "exceeded maximum nesting depth of 10"

/-- The missing-`)`-after-group error message. -/
def msgMissingParen : String := "missing closing parenthesis"

/-- The empty-IN-list error message. -/
def msgEmptyIn : String := "IN operator must have at least one value"

/-- The tokens-exhausted-inside-IN-list error message. -/
def msgUnclosedIn : String := "unclosed IN list"

/-- The missing-`)`-after-IN-list error message. -/
def msgMissingParenIn : String := "missing closing parenthesis in IN list"

/-- The missing-`(`-after-IN error message. -/
def msgExpectedOpenIn : String :=
  "expected " ++ qstr ++ "(" ++ qstr ++ " after " ++ qstr ++ "IN" ++ qstr

/-- Token kinds accepted as an IN-list value. -/
def isInValueTyp (t : tokenType) : Bool :=
  t = tString || t = tNumber || t = tIdentifier

/-- The IN-list loop of `parseConditionOrIn`: break on `)` (unconsumed),
fail when tokens run out, collect a sanitized value, continue only past a
comma. -/
def inLoop (acc : List String) : List token → Except PErr (List String × List token)
  | [] => .error (.msg msgUnclosedIn)
  | t :: rest =>
    if t.typ = tParenClose then .ok (acc, t :: rest)
    else if isInValueTyp t.typ then
      let acc' := acc ++ [SanitizeValue t.val]
      match rest with
      | c :: rest2 =>
        if c.typ = tComma then inLoop acc' rest2
        else .ok (acc', c :: rest2)
      | [] => .ok (acc', [])
    else .error (.msg ("invalid value in IN list: " ++ t.val))

/-- The IN-list loop followed by the `p.expect(tParenClose)` that closes
the list: on success the collected values become an IN node. -/
def parseInAfterOpen (field : String) (s1 : List token) :
    Except PErr (Node × List token) :=
  match inLoop [] s1 with
  | .error e => .error e
  | .ok (vals, r) =>
    match r with
    | c :: r2 =>
      if c.typ = tParenClose then .ok (.inn field vals, r2)
      else .error (.msg msgMissingParenIn)
    | [] => .error (.msg msgMissingParenIn)

/-- The IN branch after the field: expect `(`, reject an immediately
closing list as empty, then run the loop and expect the closing `)`. -/
def parseInTail (field : String) (s : List token) :
    Except PErr (Node × List token) :=
  match s with
  | [] => .error (.msg msgExpectedOpenIn)
  | t :: s1 =>
    if t.typ = tParenOpen then
      match s1 with
      | t2 :: _ =>
        if t2.typ = tParenClose then .error (.msg msgEmptyIn)
        else parseInAfterOpen field s1
      | [] => parseInAfterOpen field []
    else .error (.msg msgExpectedOpenIn)

/-- The comparison branch after the field: a valid comparison keyword, then
a string, number, identifier or literal token as the value. -/
def parseCondTail (field rawField : String) (s : List token) :
    Except PErr (Node × List token) :=
  match s with
  | [] => .error (.msg ("expected operator after field \"" ++ rawField ++ "\""))
  | op :: s1 =>
    if isValidOperator op.val then
      match s1 with
      | [] => .error (.msg ("missing value after operator \"" ++ op.val ++ "\""))
      | v :: s2 =>
        if v.typ = tString ∨ v.typ = tNumber ∨ v.typ = tIdentifier ∨ v.typ = tLiteral then
          .ok (.cond field (opMapping op.val) (SanitizeValue v.val), s2)
        else .error (.msg ("invalid value: " ++ v.val))
    else .error (.msg ("unsupported operator: " ++ op.val))

/-- `parseConditionOrIn`: the leading token must be an identifier (when the
parser is already at the end, Go formats `p.current()` into the error text
and panics on the out-of-range read), the snake-cased field must not be a
reserved keyword, then either the IN branch or a simple comparison. -/
def parseConditionOrIn (s : List token) : Except PErr (Node × List token) :=
  match s with
  | [] => .error .panicked
  | fld :: s1 =>
    if fld.typ = tIdentifier then
      let field := ToSnakeCase fld.val
      if IsReservedSQLKeyword field then
        .error (.msg ("invalid field name: \"" ++ field ++ "\" is a reserved SQL keyword"))
      else
        match s1 with
        | t :: s2 =>
          if t.typ = tOpIn then parseInTail field s2
          else parseCondTail field fld.val s1
        | [] => parseCondTail field fld.val []
    else .error (.msg ("expected field name, got " ++ fld.val))

/-- Selector naming the six mutually recursive parser functions of
`internal/parser.go`; the two loop phases carry the left fold accumulator.
Threading one selector through a single fuel-indexed function keeps the
recursion structural, so that the parser computes by kernel reduction. -/
inductive parsePhase where
  | expr | orE | orLoop (left : Node) | andE | andLoop (left : Node) | notE | prim

/-- The parser: one fuel-indexed step function covering `parseExpression`,
`parseOr` (with its `for p.match(tOpOr)` loop), `parseAnd` (likewise),
`parseNot` and `parsePrimary`. Each phase body mirrors the corresponding Go
function; fuel decreases on every call and the entry point supplies enough
for any input. -/
def parseStep : Nat → parsePhase → Nat → List token → Except PErr (Node × List token)
  | 0, _, _, _ => .error .fuelOut
  | fuel + 1, ph, depth, s =>
    match ph with
    | .expr => parseStep fuel .orE depth s
    | .orE =>
      match parseStep fuel .andE depth s with
      | .error e => .error e
      | .ok (left, s1) => parseStep fuel (.orLoop left) depth s1
    | .orLoop left =>
      match s with
      | t :: s1 =>
        if t.typ = tOpOr then
          match s1 with
          | [] => .error (.msg "expected expression after OR, but found end of input")
          | _ =>
            match parseStep fuel .andE depth s1 with
            | .error e => .error e
            | .ok (right, s2) => parseStep fuel (.orLoop (.binary opOr left right)) depth s2
        else .ok (left, t :: s1)
      | [] => .ok (left, [])
    | .andE =>
      match parseStep fuel .notE depth s with
      | .error e => .error e
      | .ok (left, s1) => parseStep fuel (.andLoop left) depth s1
    | .andLoop left =>
      match s with
      | t :: s1 =>
        if t.typ = tOpAnd then
          match s1 with
          | [] => .error (.msg "expected expression after AND, but found end of input")
          | _ =>
            match parseStep fuel .notE depth s1 with
            | .error e => .error e
            | .ok (right, s2) => parseStep fuel (.andLoop (.binary opAnd left right)) depth s2
        else .ok (left, t :: s1)
      | [] => .ok (left, [])
    | .notE =>
      match s with
      | t :: s1 =>
        if t.typ = tOpNot then
          match s1 with
          | [] => .error (.msg "invalid use of NOT: missing expression")
          | _ =>
            match parseStep fuel .notE depth s1 with
            | .error e => .error e
            | .ok (c, s2) => .ok (.not c, s2)
        else parseStep fuel .prim depth (t :: s1)
      | [] => parseStep fuel .prim depth []
    | .prim =>
      if depth > maxNestingDepth then .error (.msg msgNesting)
      else
        match s with
        | t :: s1 =>
          if t.typ = tParenOpen then
            match parseStep fuel .expr (depth + 1) s1 with
            | .error e => .error e
            | .ok (n, s2) =>
              match s2 with
              | t2 :: s3 =>
                if t2.typ = tParenClose then .ok (.paren n, s3)
                else .error (.msg msgMissingParen)
              | [] => .error (.msg msgMissingParen)
          else parseConditionOrIn (t :: s1)
        | [] => parseConditionOrIn []

/-- `parseExpression`. -/
def parseExpression (fuel depth : Nat) (s : List token) : Except PErr (Node × List token) :=
  parseStep fuel .expr depth s

/-- `parseNot`. -/
def parseNot (fuel depth : Nat) (s : List token) : Except PErr (Node × List token) :=
  parseStep fuel .notE depth s

/-- `parsePrimary`. -/
def parsePrimary (fuel depth : Nat) (s : List token) : Except PErr (Node × List token) :=
  parseStep fuel .prim depth s

/-- Entry fuel: every parser call either consumes a token before recursing
or moves down the fixed six-function chain, so this bound is ample. -/
def parseFuel (tokens : List token) : Nat := 8 * tokens.length + 16

/-- `parse`: run the expression parser at depth 0 and reject leftover tokens. -/
def parse (tokens : List token) : Except PErr Node :=
  match parseExpression (parseFuel tokens) 0 tokens with
  | .error e => .error e
  | .ok (n, []) => .ok n
  | .ok (_, t :: _) => .error (.msg ("unexpected extra tokens: " ++ t.val))

/-- `BuildAST`: tokenize then parse. -/
def BuildAST (filter : String) : Except PErr Node :=
  match tokenize filter with
  | .error e => .error e
  | .ok tokens => parse tokens

/-- `FilterToSQL` (`odatasql.go`): empty trimmed input yields an empty
result, otherwise build the AST and render it at level 0. -/
def FilterToSQL (filter : String) : Except PErr String :=
  let f := goTrimSpace filter
  if f = "" then .ok ""
  else
    match BuildAST f with
    | .error e => .error e
    | .ok node => .ok (node.toSQL 0)

/-! ## Specification-side definitions used to state the claims -/

/-- Field name carried by a leaf node (empty for the other kinds). -/
def nodeField : Node → String
  | .cond f _ _ => f
  | .inn f _ => f
  | _ => ""

/-- Paren-scan bound: scanning the tokens from scan depth `d`, opening
parens must never push the scan depth beyond the nesting limit. The scan
depth is an upper bound for the parser's depth counter, since the counter
ignores the parens of IN lists. -/
def parenScanOk (d : Nat) : List token → Bool
  | [] => true
  | t :: rest =>
    if t.typ = tParenOpen then decide (d + 1 ≤ maxNestingDepth) && parenScanOk (d + 1) rest
    else if t.typ = tParenClose then parenScanOk (d - 1) rest
    else parenScanOk d rest

/-- Shape invariant of tokenizer output: paren-kind tokens carry exactly
the paren text (so a token whose text is a comparison keyword is never a
paren token). -/
def wfTok (t : token) : Prop :=
  (t.typ = tParenOpen → t.val = "(") ∧ (t.typ = tParenClose → t.val = ")")

instance (t : token) : Decidable (wfTok t) := by
  unfold wfTok
  infer_instance

/-- Result invariant for the depth-limit proof: the parser outcome is not
the nesting error, and a success leaves a remainder that still scan-checks
at the same depth and is still well-shaped. -/
def NoNest (r : Except PErr (Node × List token)) (d : Nat) : Prop :=
  r ≠ .error (.msg msgNesting)
  ∧ ∀ n s', r = .ok (n, s') →
      parenScanOk d s' = true ∧ ∀ t ∈ s', wfTok t

/-- The IN-list body grammar exactly as the claim states it:
`literal (',' literal)* ')'`, returning the literal tokens and the
remainder after the closing paren. -/
def inGrammarStrictItems : List token → Option (List token × List token)
  | l :: rest =>
    if isInValueTyp l.typ then
      match rest with
      | c :: rest2 =>
        if c.typ = tComma then
          match inGrammarStrictItems rest2 with
          | some (ls, r) => some (l :: ls, r)
          | none => none
        else if c.typ = tParenClose then some ([l], rest2)
        else none
      | [] => none
    else none
  | [] => none

/-- The claim's IN grammar including the opening paren:
`'(' literal (',' literal)* ')'`. -/
def inGrammarStrict : List token → Option (List token × List token)
  | t :: s => if t.typ = tParenOpen then inGrammarStrictItems s else none
  | [] => none

/-- The amended IN-list body grammar: `literal (',' literal)* ','? ')'` —
the code also accepts one trailing comma before the closing paren. -/
def inGrammarAmendedItems : List token → Option (List token × List token)
  | l :: rest =>
    if isInValueTyp l.typ then
      match rest with
      | c :: rest2 =>
        if c.typ = tComma then
          match rest2 with
          | t :: r =>
            if t.typ = tParenClose then some ([l], r)
            else
              match inGrammarAmendedItems rest2 with
              | some (ls, r2) => some (l :: ls, r2)
              | none => none
          | [] => none
        else if c.typ = tParenClose then some ([l], rest2)
        else none
      | [] => none
    else none
  | [] => none

/-- The amended IN grammar including the opening paren. -/
def inGrammarAmended : List token → Option (List token × List token)
  | t :: s => if t.typ = tParenOpen then inGrammarAmendedItems s else none
  | [] => none

/-- The tokens after the opening paren of an IN list end at a value
position: zero or more `literal ','` items and then nothing — the loop is
left waiting for a value when the input runs out. -/
def endsAtValuePos : List token → Bool
  | [] => true
  | l :: rest =>
    if l.typ = tParenClose then false
    else if isInValueTyp l.typ then
      match rest with
      | c :: rest2 => if c.typ = tComma then endsAtValuePos rest2 else false
      | [] => false
    else false

/-- The tokens after the opening paren of an IN list reach a literal item
that is followed by nothing, or by a token that is neither a comma nor a
closing paren — the loop breaks after that literal and the expected `)` is
absent. -/
def litThenBad : List token → Bool
  | [] => false
  | l :: rest =>
    if l.typ = tParenClose then false
    else if isInValueTyp l.typ then
      match rest with
      | [] => true
      | u :: r2 =>
        if u.typ = tComma then litThenBad r2
        else if u.typ = tParenClose then false
        else true
    else false

/-! ## Claim theorems -/

/-- C1 (code bug): the wired pipeline does not reject a literal containing
`;` and `--` — `SanitizeValue` never fails, so the injection value is
quoted and returned as SQL with no error, while the repository's alternate
sanitizer `validateAndSanitizeValue` rejects exactly this literal, as the
injection test expects of `FilterToSQL`. -/
theorem filterToSQL_semicolon_literal_passes :
    FilterToSQL ("id eq " ++ qstr ++ "1; DROP TABLE users --" ++ qstr) =
      .ok ("id = " ++ qstr ++ "1; DROP TABLE users --" ++ qstr)
    ∧ validateAndSanitizeValue (qstr ++ "1; DROP TABLE users --" ++ qstr) =
      .error ("invalid input detected: " ++ qstr ++ "1; DROP TABLE users --" ++ qstr) :=
  ⟨by decide, by decide⟩

/-- C2 (code bug): a reserved SQL keyword in field position is rejected,
but the same keyword in literal/value position is accepted and quoted by
the wired pipeline, because `SanitizeValue` never fails; the repository's
alternate sanitizer rejects it as the specification describes. -/
theorem filterToSQL_reserved_keyword_positions :
    FilterToSQL "name eq select" = .ok ("name = " ++ qstr ++ "select" ++ qstr)
    ∧ FilterToSQL ("select eq " ++ qstr ++ "Alice" ++ qstr) =
      .error (.msg "invalid field name: \"select\" is a reserved SQL keyword")
    ∧ validateAndSanitizeValue "select" =
      .error "invalid input detected: select is a reserved SQL keyword" :=
  ⟨by decide, by decide, by decide⟩

/-- C3 (code bug): on the input consisting of a single `(`, the group is
never closed, yet the parser does not return the structured missing-paren
error: `parseConditionOrIn` is reached at the end of the token sequence and
formats `p.current()` into its error text, reading past the end of the
tokens — a Go runtime panic, not a structured error. -/
theorem parse_lone_open_paren_panics :
    FilterToSQL "(" = .error .panicked
    ∧ tokenize "(" = .ok [⟨tokenType.tParenOpen, "("⟩]
    ∧ parseConditionOrIn [] = .error .panicked :=
  ⟨by decide, by decide, by decide⟩

/-- C4 (confirmed): a binary node at level 0 is emitted bare with its
children rendered at level 1; at a positive level it is wrapped in exactly
one parenthesis pair; and the example input parses to OR applied to an AND
node (AND binds tighter) and renders with the AND operand parenthesized. -/
theorem binary_precedence_rendering :
    (∀ (op : String) (l r : Node),
      Node.toSQL (.binary op l r) 0 = l.toSQL 1 ++ " " ++ op ++ " " ++ r.toSQL 1)
    ∧ (∀ (op : String) (l r : Node) (lvl : Nat), 0 < lvl →
      Node.toSQL (.binary op l r) lvl =
        "(" ++ l.toSQL (lvl + 1) ++ " " ++ op ++ " " ++ r.toSQL (lvl + 1) ++ ")")
    ∧ BuildAST ("a gt 1 and b eq " ++ qstr ++ "x" ++ qstr ++ " or c eq true") =
      .ok (.binary opOr
        (.binary opAnd (.cond "a" ">" "1") (.cond "b" "=" (qstr ++ "x" ++ qstr)))
        (.cond "c" "=" "true"))
    ∧ FilterToSQL ("a gt 1 and b eq " ++ qstr ++ "x" ++ qstr ++ " or c eq true") =
      .ok ("(a > 1 AND b = " ++ qstr ++ "x" ++ qstr ++ ") OR c = true") := by
  refine ⟨fun op l r => rfl, fun op l r lvl h => ?_, by decide, by decide⟩
  simp only [Node.toSQL, if_pos h]

/-- Witness for C4 at a concrete nested binary node. -/
theorem binary_precedence_rendering_witness :
    Node.toSQL (.binary "AND" (.cond "a" "=" "1") (.cond "b" "=" "2")) 1 =
      "(a = 1 AND b = 2)" := by
  rw [binary_precedence_rendering.2.1 "AND" (.cond "a" "=" "1") (.cond "b" "=" "2") 1
    (by decide)]
  decide

/-- C5 (confirmed): a paren node prints exactly one surrounding pair at
every level and restarts its child at level 0, and the doubly grouped
example yields two paren nodes and exactly two parenthesis pairs. -/
theorem paren_node_single_pair :
    (∀ (c : Node) (lvl : Nat), Node.toSQL (.paren c) lvl = "(" ++ c.toSQL 0 ++ ")")
    ∧ BuildAST ("((name eq " ++ qstr ++ "Bob" ++ qstr ++ "))") =
      .ok (.paren (.paren (.cond "name" "=" (qstr ++ "Bob" ++ qstr))))
    ∧ FilterToSQL ("((name eq " ++ qstr ++ "Bob" ++ qstr ++ "))") =
      .ok ("((name = " ++ qstr ++ "Bob" ++ qstr ++ "))") :=
  ⟨fun c lvl => rfl, by decide, by decide⟩

/-- C6 (confirmed): parseNot is right-recursive over stacked NOT tokens, a
NOT node renders `NOT` and its child at the next level, wrapping itself
exactly when its own level is positive, and the double-NOT example renders
as claimed. -/
theorem not_right_recursive_rendering :
    (∀ c : Node, Node.toSQL (.not c) 0 = "NOT " ++ c.toSQL 1)
    ∧ (∀ (c : Node) (lvl : Nat), 0 < lvl →
      Node.toSQL (.not c) lvl = "(NOT " ++ c.toSQL (lvl + 1) ++ ")")
    ∧ (∀ (fuel depth : Nat) (t : token) (s : List token), t.typ = tOpNot → s ≠ [] →
      parseNot (fuel + 1) depth (t :: s) =
        match parseNot fuel depth s with
        | .error e => .error e
        | .ok (c, s2) => .ok (.not c, s2))
    ∧ BuildAST ("not not name eq " ++ qstr ++ "Bob" ++ qstr) =
      .ok (.not (.not (.cond "name" "=" (qstr ++ "Bob" ++ qstr))))
    ∧ FilterToSQL ("not not name eq " ++ qstr ++ "Bob" ++ qstr) =
      .ok ("NOT (NOT name = " ++ qstr ++ "Bob" ++ qstr ++ ")") := by
  refine ⟨fun c => rfl, fun c lvl h => ?_, fun fuel depth t s ht hs => ?_, by decide, by decide⟩
  · simp only [Node.toSQL, if_pos h]
  · cases s with
    | nil => exact absurd rfl hs
    | cons hd tl => simp [parseNot, parseStep, ht]

/-- Witness for C6: the NOT rendering rule at level 1 and the right
recursion of parseNot at a concrete state. -/
theorem not_right_recursive_rendering_witness :
    Node.toSQL (.not (.cond "a" "=" "1")) 1 = "(NOT a = 1)"
    ∧ parseNot 9 0 [⟨tokenType.tOpNot, "not"⟩, ⟨tokenType.tIdentifier, "a"⟩,
        ⟨tokenType.tOpEq, "eq"⟩, ⟨tokenType.tNumber, "1"⟩] =
      .ok (.not (.cond "a" "=" "1"), []) := by
  constructor
  · rw [not_right_recursive_rendering.2.1 (.cond "a" "=" "1") 1 (by decide)]
    decide
  · rw [not_right_recursive_rendering.2.2.1 8 0 ⟨tokenType.tOpNot, "not"⟩
      [⟨tokenType.tIdentifier, "a"⟩, ⟨tokenType.tOpEq, "eq"⟩, ⟨tokenType.tNumber, "1"⟩]
      (by decide) (by decide)]
    decide

/-! ## Character-level helper lemmas -/

/-- Valid code points below the surrogate range round-trip through `Char.ofNat`. -/
theorem toNat_ofNat_valid (n : Nat) (h : n < 55296) : (Char.ofNat n).toNat = n := by
  have hv : Nat.isValidChar n := Or.inl h
  simp [Char.ofNat, hv, Char.toNat, Char.ofNatAux, UInt32.toNat, UInt32.ofNat]

/-- Code-point view of `asciiLowerChar`. -/
theorem asciiLowerChar_toNat (c : Char) :
    (asciiLowerChar c).toNat = c.toNat ∨
    ((asciiLowerChar c).toNat = c.toNat + 32 ∧ 65 ≤ c.toNat ∧ c.toNat ≤ 90) := by
  unfold asciiLowerChar
  split
  · next h => exact Or.inr ⟨toNat_ofNat_valid _ (by omega), h.1, h.2⟩
  · exact Or.inl rfl

/-- A character whose ASCII lower-casing is a lower-case letter is itself a
letter: not a digit, sign, or decimal point. -/
theorem letter_head_facts (a x : Char) (ha : asciiLowerChar a = x)
    (hx : 97 ≤ x.toNat ∧ x.toNat ≤ 122) :
    isDigitChar a = false ∧ a ≠ '+' ∧ a ≠ '-' ∧ a ≠ '.' := by
  have h1 := congrArg Char.toNat ha
  have hge : 65 ≤ a.toNat := by
    rcases asciiLowerChar_toNat a with h2 | ⟨h2, h3, h4⟩ <;> rw [h2] at h1 <;> omega
  refine ⟨by simp only [isDigitChar]; simp; omega, ?_, ?_, ?_⟩ <;>
    intro he <;> rw [he] at hge <;> exact absurd hge (by decide)

/-- A string whose ASCII lowering is `true`, `false` or `null` is not
accepted by the float recognizer. -/
theorem parseFloatOk_false_of_bareword (w : String)
    (h : asciiLower w = "true" ∨ asciiLower w = "false" ∨ asciiLower w = "null") :
    parseFloatOk w = false := by
  have key : ∀ (x : Char) (xs : List Char), 97 ≤ x.toNat → x.toNat ≤ 122 →
      asciiLower w = String.mk (x :: xs) →
      ∃ (a : Char) (rest : List Char), w.data = a :: rest ∧
        97 ≤ (asciiLowerChar a).toNat ∧ (asciiLowerChar a).toNat ≤ 122 := by
    intro x xs hx1 hx2 hstr
    have hm := congrArg String.data hstr
    simp only [asciiLower] at hm
    rcases hw : w.data with _ | ⟨a, rest⟩ <;> rw [hw] at hm
    · simp at hm
    · simp at hm
      exact ⟨a, rest, rfl, by rw [hm.1]; exact hx1, by rw [hm.1]; exact hx2⟩
  have hdata : ∃ (a : Char) (rest : List Char),
      w.data = a :: rest ∧ 97 ≤ (asciiLowerChar a).toNat ∧ (asciiLowerChar a).toNat ≤ 122 := by
    rcases h with h | h | h
    · exact key 't' ['r', 'u', 'e'] (by decide) (by decide) (by rw [h])
    · exact key 'f' ['a', 'l', 's', 'e'] (by decide) (by decide) (by rw [h])
    · exact key 'n' ['u', 'l', 'l'] (by decide) (by decide) (by rw [h])
  obtain ⟨a, rest, hw, h97, h122⟩ := hdata
  obtain ⟨hdig, hplus, hminus, hdot⟩ :=
    letter_head_facts a (asciiLowerChar a) rfl ⟨h97, h122⟩
  have hsign : dropSign w.data = a :: rest := by
    rw [hw]
    show (if a = '+' ∨ a = '-' then rest else a :: rest) = a :: rest
    rw [if_neg]; rintro (rfl | rfl) <;> simp_all
  have hbody : decBodyOk (a :: rest) = false := by
    unfold decBodyOk
    simp only [List.takeWhile, List.dropWhile, hdig]
    simp [hdot]
  unfold parseFloatOk
  rcases h with h | h | h <;> rw [h] <;> rw [if_neg (by decide)] <;>
    rw [hsign] <;> exact hbody

/-- Field-name projection of a successful IN-loop-and-close parse. -/
theorem parseInAfterOpen_field {field : String} {s1 r : List token} {n : Node}
    (h : parseInAfterOpen field s1 = .ok (n, r)) : nodeField n = field := by
  unfold parseInAfterOpen at h
  rcases hl : inLoop [] s1 with e | ⟨vals, rr⟩ <;> rw [hl] at h <;> dsimp only at h
  · exact absurd h (by simp)
  · rcases rr with _ | ⟨c, r2⟩ <;> dsimp only at h
    · exact absurd h (by simp)
    · by_cases hc : c.typ = tParenClose
      · rw [if_pos hc] at h
        simp only [Except.ok.injEq, Prod.mk.injEq] at h
        rw [← h.1]
        rfl
      · rw [if_neg hc] at h
        exact absurd h (by simp)

/-- Field-name projection of a successful IN parse. -/
theorem parseInTail_field {field : String} {s r : List token} {n : Node}
    (h : parseInTail field s = .ok (n, r)) : nodeField n = field := by
  unfold parseInTail at h
  rcases s with _ | ⟨t, s1⟩ <;> dsimp only at h
  · exact absurd h (by simp)
  · by_cases ho : t.typ = tParenOpen
    · rw [if_pos ho] at h
      rcases s1 with _ | ⟨t2, s2⟩ <;> dsimp only at h
      · exact parseInAfterOpen_field h
      · by_cases hc : t2.typ = tParenClose
        · rw [if_pos hc] at h; exact absurd h (by simp)
        · rw [if_neg hc] at h; exact parseInAfterOpen_field h
    · rw [if_neg ho] at h
      exact absurd h (by simp)

/-- Field-name projection of a successful comparison parse. -/
theorem parseCondTail_field {field raw : String} {s r : List token} {n : Node}
    (h : parseCondTail field raw s = .ok (n, r)) : nodeField n = field := by
  unfold parseCondTail at h
  rcases s with _ | ⟨op, s1⟩ <;> dsimp only at h
  · exact absurd h (by simp)
  · by_cases hv : isValidOperator op.val
    · rw [if_pos hv] at h
      rcases s1 with _ | ⟨v, s2⟩ <;> dsimp only at h
      · exact absurd h (by simp)
      · split at h
        · simp only [Except.ok.injEq, Prod.mk.injEq] at h
          rw [← h.1]
          rfl
        · exact absurd h (by simp)
    · rw [if_neg hv] at h
      exact absurd h (by simp)

/-- Every successful condition parse snake-cases the leading identifier
into the node's field. -/
theorem parseConditionOrIn_field {t : token} {rest r : List token} {n : Node}
    (h : parseConditionOrIn (t :: rest) = .ok (n, r)) :
    nodeField n = ToSnakeCase t.val := by
  unfold parseConditionOrIn at h
  dsimp only at h
  by_cases hid : t.typ = tIdentifier
  · rw [if_pos hid] at h
    by_cases hres : IsReservedSQLKeyword (ToSnakeCase t.val)
    · rw [if_pos hres] at h
      exact absurd h (by simp)
    · rw [if_neg hres] at h
      rcases rest with _ | ⟨t2, s2⟩ <;> dsimp only at h
      · exact parseCondTail_field h
      · by_cases hin : t2.typ = tOpIn
        · rw [if_pos hin] at h
          exact parseInTail_field h
        · rw [if_neg hin] at h
          exact parseCondTail_field h
  · rw [if_neg hid] at h
    exact absurd h (by simp)

/-- C9 (confirmed): every accepted condition renders its field as the
snake-cased identifier — underscore inserted at each lower-or-digit to
upper boundary (and only there), then the whole string lower-cased — and
the PascalCase example renders as claimed. -/
theorem snake_case_field_rendering :
    (∀ (t : token) (rest r : List token) (n : Node),
      parseConditionOrIn (t :: rest) = .ok (n, r) → nodeField n = ToSnakeCase t.val)
    ∧ (∀ (a b : Char) (tl : List Char),
      (97 ≤ a.toNat ∧ a.toNat ≤ 122 ∨ 48 ≤ a.toNat ∧ a.toNat ≤ 57) →
      65 ≤ b.toNat ∧ b.toNat ≤ 90 →
      snakeInsert (a :: b :: tl) = a :: '_' :: snakeInsert (b :: tl))
    ∧ (∀ (a b : Char) (tl : List Char),
      ¬ ((97 ≤ a.toNat ∧ a.toNat ≤ 122 ∨ 48 ≤ a.toNat ∧ a.toNat ≤ 57) ∧
        65 ≤ b.toNat ∧ b.toNat ≤ 90) →
      snakeInsert (a :: b :: tl) = a :: snakeInsert (b :: tl))
    ∧ FilterToSQL ("FirstName eq " ++ qstr ++ "John" ++ qstr) =
      .ok ("first_name = " ++ qstr ++ "John" ++ qstr) := by
  refine ⟨fun t rest r n h => parseConditionOrIn_field h,
    fun a b tl h1 h2 => ?_, fun a b tl h => ?_, by decide⟩
  · conv_lhs => rw [snakeInsert]
    rw [if_pos ⟨h1, h2⟩]
  · conv_lhs => rw [snakeInsert]
    rw [if_neg h]

/-- Witness for C9: the field projection of a concrete accepted condition
and the underscore insertion at a concrete boundary. -/
theorem snake_case_field_rendering_witness :
    nodeField (.cond "first_name" "=" "1") = ToSnakeCase "FirstName"
    ∧ snakeInsert ['t', 'N'] = ['t', '_', 'N'] := by
  constructor
  · exact snake_case_field_rendering.1 ⟨tokenType.tIdentifier, "FirstName"⟩
      [⟨tokenType.tOpEq, "eq"⟩, ⟨tokenType.tNumber, "1"⟩] [] (.cond "first_name" "=" "1")
      (by decide)
  · rw [snake_case_field_rendering.2.1 't' 'N' [] (by decide) (by decide)]
    decide

/-- C10 (confirmed): any-case `true`, `false` and `null` are classified as
identifier tokens (they are neither operator keywords nor numbers), none is
a reserved SQL keyword, and they are accepted in field position:
`true eq false` converts to `true = false`. -/
theorem bareword_literals_are_identifiers :
    (∀ w : String,
      asciiLower w = "true" ∨ asciiLower w = "false" ∨ asciiLower w = "null" →
      classifyWord w = ⟨tokenType.tIdentifier, w⟩)
    ∧ IsReservedSQLKeyword "true" = false
    ∧ IsReservedSQLKeyword "false" = false
    ∧ IsReservedSQLKeyword "null" = false
    ∧ FilterToSQL "true eq false" = .ok "true = false" := by
  refine ⟨fun w hw => ?_, by decide, by decide, by decide, by decide⟩
  have hfloat : parseFloatOk w = false := parseFloatOk_false_of_bareword w hw
  unfold classifyWord
  rcases hw with h | h | h <;> rw [h] <;> dsimp only [keywordLookup] <;>
    rw [if_neg (by decide), if_neg (by decide), if_neg (by decide), if_neg (by decide),
      if_neg (by decide), if_neg (by decide), if_neg (by decide), if_neg (by decide),
      if_neg (by decide), if_neg (by decide)] <;>
    dsimp only <;> rw [hfloat] <;> rfl

/-- Witness for C10: the mixed-case bareword TRUE is tokenized as an
identifier carrying its original text. -/
theorem bareword_literals_are_identifiers_witness :
    classifyWord "TRUE" = ⟨tokenType.tIdentifier, "TRUE"⟩ :=
  bareword_literals_are_identifiers.1 "TRUE" (by decide)

/-! ## Depth-limit invariant (C7) -/

/-- Scanning past a non-paren token keeps the scan depth. -/
theorem parenScanOk_cons_other {d : Nat} {t : token} {rest : List token}
    (h1 : t.typ ≠ tParenOpen) (h2 : t.typ ≠ tParenClose) :
    parenScanOk d (t :: rest) = parenScanOk d rest := by
  conv_lhs => rw [parenScanOk]
  rw [if_neg h1, if_neg h2]

/-- Scanning an opening paren pushes the depth and records the bound. -/
theorem parenScanOk_cons_open {d : Nat} {t : token} {rest : List token}
    (ht : t.typ = tParenOpen) (h : parenScanOk d (t :: rest) = true) :
    d + 1 ≤ maxNestingDepth ∧ parenScanOk (d + 1) rest = true := by
  rw [parenScanOk, if_pos ht] at h
  simpa using h

/-- Scanning a closing paren pops the depth. -/
theorem parenScanOk_cons_close {d : Nat} {t : token} {rest : List token}
    (ht : t.typ = tParenClose) (h : parenScanOk d (t :: rest) = true) :
    parenScanOk (d - 1) rest = true := by
  rw [parenScanOk, if_neg (by rw [ht]; exact fun hc => tokenType.noConfusion hc),
    if_pos ht] at h
  exact h

/-- A token accepted as an IN-list value is not a paren token. -/
theorem isInValueTyp_not_paren {tt : tokenType} (h : isInValueTyp tt = true) :
    tt ≠ tParenOpen ∧ tt ≠ tParenClose := by
  cases tt <;> simp_all [isInValueTyp]

/-- A well-shaped token whose text is a comparison keyword is not a paren
token. -/
theorem opToken_not_paren {t : token} (hw : wfTok t)
    (hv : isValidOperator t.val = true) :
    t.typ ≠ tParenOpen ∧ t.typ ≠ tParenClose := by
  constructor
  · intro h
    rw [hw.1 h] at hv
    exact absurd hv (by decide)
  · intro h
    rw [hw.2 h] at hv
    exact absurd hv (by decide)

/-- The keyword table yields operator token kinds only, never parens. -/
theorem keywordLookup_not_paren {w : String} {tt : tokenType}
    (h : keywordLookup w = some tt) : tt ≠ tParenOpen ∧ tt ≠ tParenClose := by
  unfold keywordLookup at h
  repeat' split at h
  all_goals try exact Option.noConfusion h
  all_goals injection h with h
  all_goals subst h
  all_goals exact ⟨by decide, by decide⟩

/-- Word classification yields well-shaped tokens. -/
theorem classifyWord_wf (w : String) : wfTok (classifyWord w) := by
  have hdef : classifyWord w =
      (match keywordLookup (asciiLower w) with
        | some tt => ⟨tt, asciiLower w⟩
        | none => if parseFloatOk w then ⟨tNumber, w⟩ else ⟨tIdentifier, w⟩) := rfl
  rw [hdef]
  rcases hk : keywordLookup (asciiLower w) with _ | tt <;> dsimp only
  · split
    · exact ⟨fun h => tokenType.noConfusion h, fun h => tokenType.noConfusion h⟩
    · exact ⟨fun h => tokenType.noConfusion h, fun h => tokenType.noConfusion h⟩
  · obtain ⟨h1, h2⟩ := keywordLookup_not_paren hk
    exact ⟨fun h => absurd h h1, fun h => absurd h h2⟩

/-- Unpack a successful mapped cons over an Except value. -/
theorem exceptMap_cons_ok {tok : token} {r : Except PErr (List token)} {toks : List token}
    (h : r.map (tok :: ·) = .ok toks) : ∃ l, r = .ok l ∧ toks = tok :: l := by
  cases r with
  | error e => simp [Except.map] at h
  | ok l => simp [Except.map] at h; exact ⟨l, rfl, h.symm⟩

/-- Every token the tokenizer loop emits is well-shaped. -/
theorem tokenizeFuel_wf : ∀ (fuel : Nat) (cs : List Char) (toks : List token),
    tokenizeFuel fuel cs = .ok toks → ∀ t ∈ toks, wfTok t := by
  intro fuel
  induction fuel with
  | zero =>
    intro cs toks h
    exact absurd h (by simp [tokenizeFuel])
  | succ fuel ih =>
    intro cs toks h
    rcases cs with _ | ⟨c, rest⟩
    · have h0 : tokenizeFuel (fuel + 1) ([] : List Char) = .ok [] := rfl
      rw [h0] at h
      cases h
      intro t ht
      cases ht
    · rw [tokenizeFuel] at h
      split at h
      · exact ih rest toks h
      · split at h
        · obtain ⟨l, hl, rfl⟩ := exceptMap_cons_ok h
          intro t ht
          rcases List.mem_cons.mp ht with rfl | ht
          · exact ⟨fun _ => rfl, fun hc => tokenType.noConfusion hc⟩
          · exact ih rest l hl t ht
        · split at h
          · obtain ⟨l, hl, rfl⟩ := exceptMap_cons_ok h
            intro t ht
            rcases List.mem_cons.mp ht with rfl | ht
            · exact ⟨fun hc => tokenType.noConfusion hc, fun _ => rfl⟩
            · exact ih rest l hl t ht
          · split at h
            · obtain ⟨l, hl, rfl⟩ := exceptMap_cons_ok h
              intro t ht
              rcases List.mem_cons.mp ht with rfl | ht
              · exact ⟨fun hc => tokenType.noConfusion hc, fun hc => tokenType.noConfusion hc⟩
              · exact ih rest l hl t ht
            · split at h
              · split at h
                · exact absurd h (by simp)
                · next str rem heq =>
                    obtain ⟨l, hl, rfl⟩ := exceptMap_cons_ok h
                    intro t ht
                    rcases List.mem_cons.mp ht with rfl | ht
                    · exact ⟨fun hc => tokenType.noConfusion hc, fun hc => tokenType.noConfusion hc⟩
                    · exact ih rem l hl t ht
              · obtain ⟨l, hl, rfl⟩ := exceptMap_cons_ok h
                intro t ht
                rcases List.mem_cons.mp ht with rfl | ht
                · exact classifyWord_wf _
                · exact ih _ l hl t ht

/-- Every token of a successful tokenize run is well-shaped. -/
theorem tokenize_wf {s : String} {toks : List token}
    (h : tokenize s = .ok toks) : ∀ t ∈ toks, wfTok t := by
  unfold tokenize at h
  exact tokenizeFuel_wf _ _ _ h

/-- A fixed-prefix message differs from the nesting error whenever the
first three characters already differ. -/
theorem ne_msgNesting_of_head (p x : String)
    (hlen : 3 ≤ p.data.length)
    (hne : p.data.take 3 ≠ msgNesting.data.take 3) :
    (p ++ x) ≠ msgNesting := by
  intro h
  apply hne
  have h3 := congrArg (fun s => (String.data s).take 3) h
  simp only at h3
  rw [String.data_append, List.take_append_eq_append_take,
    Nat.sub_eq_zero_of_le hlen, List.take_zero, List.append_nil] at h3
  exact h3

/-- An error result with a message other than the nesting one satisfies the
invariant. -/
theorem noNest_error {d : Nat} {m : String} (hm : m ≠ msgNesting) :
    NoNest (.error (.msg m)) d := by
  constructor
  · intro h
    injection h with h
    injection h with h
    exact hm h
  · intro n s' h
    cases h

/-- A panic satisfies the invariant. -/
theorem noNest_panic {d : Nat} : NoNest (.error .panicked) d := by
  constructor
  · intro h
    injection h with h
    cases h
  · intro n s' h
    cases h

/-- A success whose remainder still scan-checks satisfies the invariant. -/
theorem noNest_ok {d : Nat} {n : Node} {s' : List token}
    (h1 : parenScanOk d s' = true) (h2 : ∀ t ∈ s', wfTok t) :
    NoNest (.ok (n, s')) d := by
  constructor
  · intro h
    cases h
  · intro n2 s2 h
    cases h
    exact ⟨h1, h2⟩

/-- Propagating an error through keeps the invariant, at any depth. -/
theorem noNest_error_of {d d' : Nat} {e : PErr} {r : Except PErr (Node × List token)}
    (hr : NoNest r d') (heq : r = .error e) : NoNest (.error e) d :=
  ⟨fun h => hr.1 (heq.trans h), fun n s' h => by cases h⟩

/-- A token kind accepted in value position is not a paren kind. -/
theorem valueTyp_not_paren {tt : tokenType}
    (h : tt = tString ∨ tt = tNumber ∨ tt = tIdentifier ∨ tt = tLiteral) :
    tt ≠ tParenOpen ∧ tt ≠ tParenClose := by
  rcases h with rfl | rfl | rfl | rfl <;> exact ⟨by decide, by decide⟩

/-- The IN-list loop consumes only non-paren tokens, never produces the
nesting error, and leaves a remainder that still scan-checks. -/
theorem inLoop_inv (d : Nat) : ∀ (N : Nat) (s : List token), s.length ≤ N →
    parenScanOk d s = true → (∀ t ∈ s, wfTok t) →
    ∀ (acc : List String),
      inLoop acc s ≠ .error (.msg msgNesting)
      ∧ ∀ vals r, inLoop acc s = .ok (vals, r) →
          parenScanOk d r = true ∧ ∀ t ∈ r, wfTok t := by
  intro N
  induction N with
  | zero =>
    intro s hlen hs hw acc
    have hnil : s = [] := List.eq_nil_of_length_eq_zero (Nat.le_zero.mp hlen)
    subst hnil
    rw [inLoop]
    constructor
    · intro h
      injection h with h
      injection h with h
      exact absurd h (by decide)
    · intro vals r h
      cases h
  | succ N ihN =>
    intro s hlen hs hw acc
    rcases s with _ | ⟨t, rest⟩
    · rw [inLoop]
      constructor
      · intro h
        injection h with h
        injection h with h
        exact absurd h (by decide)
      · intro vals r h
        cases h
    · rw [inLoop]
      by_cases hc : t.typ = tParenClose
      · rw [if_pos hc]
        constructor
        · intro h
          cases h
        · intro vals r h
          cases h
          exact ⟨hs, hw⟩
      · rw [if_neg hc]
        by_cases hv : isInValueTyp t.typ
        · rw [if_pos hv]
          dsimp only
          obtain ⟨hnp1, hnp2⟩ := isInValueTyp_not_paren hv
          have hsr : parenScanOk d rest = true := by
            rw [← parenScanOk_cons_other hnp1 hnp2]
            exact hs
          have hwr : ∀ u ∈ rest, wfTok u :=
            fun u hu => hw u (List.mem_cons_of_mem _ hu)
          rcases rest with _ | ⟨c, rest2⟩ <;> dsimp only
          · constructor
            · intro h
              cases h
            · intro vals r h
              cases h
              exact ⟨rfl, fun u hu => absurd hu (by simp)⟩
          · by_cases hcm : c.typ = tComma
            · rw [if_pos hcm]
              have hsr2 : parenScanOk d rest2 = true := by
                rw [← parenScanOk_cons_other (by rw [hcm]; decide) (by rw [hcm]; decide)]
                exact hsr
              have hwr2 : ∀ u ∈ rest2, wfTok u :=
                fun u hu => hwr u (List.mem_cons_of_mem _ hu)
              exact ihN rest2 (by simp at hlen; omega) hsr2 hwr2 _
            · rw [if_neg hcm]
              constructor
              · intro h
                cases h
              · intro vals r h
                cases h
                exact ⟨hsr, hwr⟩
        · rw [if_neg hv]
          constructor
          · intro h
            injection h with h
            injection h with h
            exact ne_msgNesting_of_head "invalid value in IN list: " t.val
              (by decide) (by decide) h
          · intro vals r h
            cases h

/-- The loop-and-close fragment of the IN branch keeps the invariant: it is
entered at scan depth one above the caller and its closing paren restores
the caller's depth. -/
theorem parseInAfterOpen_inv (d : Nat) (field : String) (s1 : List token)
    (hs : parenScanOk (d + 1) s1 = true) (hw : ∀ t ∈ s1, wfTok t) :
    NoNest (parseInAfterOpen field s1) d := by
  have hl := inLoop_inv (d + 1) s1.length s1 le_rfl hs hw []
  unfold parseInAfterOpen
  rcases heq : inLoop [] s1 with e | ⟨vals, rr⟩ <;> dsimp only
  · constructor
    · intro h
      injection h with h2
      rw [h2] at heq
      exact hl.1 heq
    · intro n s' h
      cases h
  · obtain ⟨hscan, hwf⟩ := hl.2 vals rr heq
    rcases rr with _ | ⟨c, r2⟩ <;> dsimp only
    · exact noNest_error (by decide)
    · by_cases hc : c.typ = tParenClose
      · rw [if_pos hc]
        apply noNest_ok
        · have hclose := parenScanOk_cons_close hc hscan
          simpa using hclose
        · exact fun u hu => hwf u (List.mem_cons_of_mem _ hu)
      · rw [if_neg hc]
        exact noNest_error (by decide)

/-- The whole IN branch keeps the invariant. -/
theorem parseInTail_inv (d : Nat) (field : String) (s : List token)
    (hs : parenScanOk d s = true) (hw : ∀ t ∈ s, wfTok t) :
    NoNest (parseInTail field s) d := by
  unfold parseInTail
  rcases s with _ | ⟨t, s1⟩ <;> dsimp only
  · exact noNest_error (by decide)
  · by_cases ho : t.typ = tParenOpen
    · rw [if_pos ho]
      obtain ⟨hd1, hs1⟩ := parenScanOk_cons_open ho hs
      have hw1 : ∀ u ∈ s1, wfTok u := fun u hu => hw u (List.mem_cons_of_mem _ hu)
      rcases s1 with _ | ⟨t2, s2⟩ <;> dsimp only
      · exact parseInAfterOpen_inv d field [] hs1 hw1
      · by_cases hc2 : t2.typ = tParenClose
        · rw [if_pos hc2]
          exact noNest_error (by decide)
        · rw [if_neg hc2]
          exact parseInAfterOpen_inv d field (t2 :: s2) hs1 hw1
    · rw [if_neg ho]
      exact noNest_error (by decide)

/-- The comparison branch keeps the invariant. -/
theorem parseCondTail_inv (d : Nat) (field raw : String) (s : List token)
    (hs : parenScanOk d s = true) (hw : ∀ t ∈ s, wfTok t) :
    NoNest (parseCondTail field raw s) d := by
  unfold parseCondTail
  rcases s with _ | ⟨op, s1⟩ <;> dsimp only
  · apply noNest_error
    rw [String.append_assoc]
    exact ne_msgNesting_of_head "expected operator after field \"" (raw ++ "\"")
      (by decide) (by decide)
  · by_cases hv : isValidOperator op.val
    · rw [if_pos hv]
      obtain ⟨ho1, ho2⟩ := opToken_not_paren (hw op (List.mem_cons_self _ _)) hv
      have hs1 : parenScanOk d s1 = true := by
        rw [← parenScanOk_cons_other ho1 ho2]
        exact hs
      have hw1 : ∀ u ∈ s1, wfTok u := fun u hu => hw u (List.mem_cons_of_mem _ hu)
      rcases s1 with _ | ⟨v, s2⟩ <;> dsimp only
      · apply noNest_error
        rw [String.append_assoc]
        exact ne_msgNesting_of_head "missing value after operator \"" (op.val ++ "\"")
          (by decide) (by decide)
      · split
        · next hvt =>
          apply noNest_ok
          · obtain ⟨hn1, hn2⟩ := valueTyp_not_paren hvt
            rw [← parenScanOk_cons_other hn1 hn2]
            exact hs1
          · exact fun u hu => hw1 u (List.mem_cons_of_mem _ hu)
        · apply noNest_error
          exact ne_msgNesting_of_head "invalid value: " v.val (by decide) (by decide)
    · rw [if_neg hv]
      apply noNest_error
      exact ne_msgNesting_of_head "unsupported operator: " op.val (by decide) (by decide)

/-- The condition parser keeps the invariant. -/
theorem parseConditionOrIn_inv (d : Nat) (s : List token)
    (hs : parenScanOk d s = true) (hw : ∀ t ∈ s, wfTok t) :
    NoNest (parseConditionOrIn s) d := by
  unfold parseConditionOrIn
  rcases s with _ | ⟨fld, s1⟩ <;> dsimp only
  · exact noNest_panic
  · by_cases hid : fld.typ = tIdentifier
    · rw [if_pos hid]
      by_cases hres : IsReservedSQLKeyword (ToSnakeCase fld.val)
      · rw [if_pos hres]
        apply noNest_error
        rw [String.append_assoc]
        exact ne_msgNesting_of_head "invalid field name: \""
          (ToSnakeCase fld.val ++ "\" is a reserved SQL keyword") (by decide) (by decide)
      · rw [if_neg hres]
        have hnp1 : fld.typ ≠ tParenOpen := by rw [hid]; decide
        have hnp2 : fld.typ ≠ tParenClose := by rw [hid]; decide
        have hs1 : parenScanOk d s1 = true := by
          rw [← parenScanOk_cons_other hnp1 hnp2]
          exact hs
        have hw1 : ∀ u ∈ s1, wfTok u := fun u hu => hw u (List.mem_cons_of_mem _ hu)
        rcases s1 with _ | ⟨t2, s2⟩ <;> dsimp only
        · exact parseCondTail_inv d _ _ [] hs1 hw1
        · by_cases hin : t2.typ = tOpIn
          · rw [if_pos hin]
            have hs2 : parenScanOk d s2 = true := by
              rw [← parenScanOk_cons_other (by rw [hin]; decide) (by rw [hin]; decide)]
              exact hs1
            have hw2 : ∀ u ∈ s2, wfTok u := fun u hu => hw1 u (List.mem_cons_of_mem _ hu)
            exact parseInTail_inv d _ s2 hs2 hw2
          · rw [if_neg hin]
            exact parseCondTail_inv d _ _ (t2 :: s2) hs1 hw1
    · rw [if_neg hid]
      apply noNest_error
      exact ne_msgNesting_of_head "expected field name, got " fld.val (by decide) (by decide)

/-- The depth-limit invariant of the whole parser: with the depth counter
within the limit and the remaining tokens scan-checking from that depth,
no phase ever produces the nesting error, and a success leaves a remainder
that still scan-checks. -/
theorem parseStep_inv : ∀ (fuel : Nat) (ph : parsePhase) (d : Nat) (s : List token),
    d ≤ maxNestingDepth → parenScanOk d s = true → (∀ t ∈ s, wfTok t) →
    NoNest (parseStep fuel ph d s) d := by
  intro fuel
  induction fuel with
  | zero =>
    intro ph d s hd hs hw
    rw [parseStep.eq_def]; dsimp only
    constructor
    · intro h
      injection h with h
      cases h
    · intro n s' h
      cases h
  | succ fuel ih =>
    intro ph d s hd hs hw
    cases ph with
    | expr =>
      rw [parseStep.eq_def]; dsimp only
      exact ih .orE d s hd hs hw
    | orE =>
      rw [parseStep.eq_def]; dsimp only
      have h1 := ih .andE d s hd hs hw
      rcases heq : parseStep fuel .andE d s with e | ⟨left, s1⟩ <;> dsimp only
      · exact noNest_error_of h1 heq
      · obtain ⟨hscan1, hwf1⟩ := h1.2 left s1 heq
        exact ih (.orLoop left) d s1 hd hscan1 hwf1
    | orLoop left =>
      rw [parseStep.eq_def]; dsimp only
      rcases s with _ | ⟨t, s1⟩ <;> dsimp only
      · exact noNest_ok rfl (by simp)
      · by_cases hor : t.typ = tOpOr
        · rw [if_pos hor]
          rcases s1 with _ | ⟨u, s2⟩ <;> dsimp only
          · exact noNest_error (by decide)
          · have hs1 : parenScanOk d (u :: s2) = true := by
              rw [← parenScanOk_cons_other (by rw [hor]; decide) (by rw [hor]; decide)]
              exact hs
            have hw1 : ∀ x ∈ u :: s2, wfTok x := fun x hx => hw x (List.mem_cons_of_mem _ hx)
            have h1 := ih .andE d (u :: s2) hd hs1 hw1
            rcases heq : parseStep fuel .andE d (u :: s2) with e | ⟨right, s2'⟩ <;> dsimp only
            · exact noNest_error_of h1 heq
            · obtain ⟨hscan1, hwf1⟩ := h1.2 _ _ heq
              exact ih (.orLoop (.binary opOr left right)) d s2' hd hscan1 hwf1
        · rw [if_neg hor]
          exact noNest_ok hs hw
    | andE =>
      rw [parseStep.eq_def]; dsimp only
      have h1 := ih .notE d s hd hs hw
      rcases heq : parseStep fuel .notE d s with e | ⟨left, s1⟩ <;> dsimp only
      · exact noNest_error_of h1 heq
      · obtain ⟨hscan1, hwf1⟩ := h1.2 left s1 heq
        exact ih (.andLoop left) d s1 hd hscan1 hwf1
    | andLoop left =>
      rw [parseStep.eq_def]; dsimp only
      rcases s with _ | ⟨t, s1⟩ <;> dsimp only
      · exact noNest_ok rfl (by simp)
      · by_cases hand : t.typ = tOpAnd
        · rw [if_pos hand]
          rcases s1 with _ | ⟨u, s2⟩ <;> dsimp only
          · exact noNest_error (by decide)
          · have hs1 : parenScanOk d (u :: s2) = true := by
              rw [← parenScanOk_cons_other (by rw [hand]; decide) (by rw [hand]; decide)]
              exact hs
            have hw1 : ∀ x ∈ u :: s2, wfTok x := fun x hx => hw x (List.mem_cons_of_mem _ hx)
            have h1 := ih .notE d (u :: s2) hd hs1 hw1
            rcases heq : parseStep fuel .notE d (u :: s2) with e | ⟨right, s2'⟩ <;> dsimp only
            · exact noNest_error_of h1 heq
            · obtain ⟨hscan1, hwf1⟩ := h1.2 _ _ heq
              exact ih (.andLoop (.binary opAnd left right)) d s2' hd hscan1 hwf1
        · rw [if_neg hand]
          exact noNest_ok hs hw
    | notE =>
      rw [parseStep.eq_def]; dsimp only
      rcases s with _ | ⟨t, s1⟩ <;> dsimp only
      · exact ih .prim d [] hd hs hw
      · by_cases hnot : t.typ = tOpNot
        · rw [if_pos hnot]
          rcases s1 with _ | ⟨u, s2⟩ <;> dsimp only
          · exact noNest_error (by decide)
          · have hs1 : parenScanOk d (u :: s2) = true := by
              rw [← parenScanOk_cons_other (by rw [hnot]; decide) (by rw [hnot]; decide)]
              exact hs
            have hw1 : ∀ x ∈ u :: s2, wfTok x := fun x hx => hw x (List.mem_cons_of_mem _ hx)
            have h1 := ih .notE d (u :: s2) hd hs1 hw1
            rcases heq : parseStep fuel .notE d (u :: s2) with e | ⟨c, s2'⟩ <;> dsimp only
            · exact noNest_error_of h1 heq
            · obtain ⟨hscan1, hwf1⟩ := h1.2 _ _ heq
              exact noNest_ok hscan1 hwf1
        · rw [if_neg hnot]
          exact ih .prim d (t :: s1) hd hs hw
    | prim =>
      rw [parseStep.eq_def]; dsimp only
      rw [if_neg (by omega)]
      rcases s with _ | ⟨t, s1⟩ <;> dsimp only
      · exact parseConditionOrIn_inv d [] hs hw
      · by_cases hop : t.typ = tParenOpen
        · rw [if_pos hop]
          obtain ⟨hd1, hs1⟩ := parenScanOk_cons_open hop hs
          have hw1 : ∀ x ∈ s1, wfTok x := fun x hx => hw x (List.mem_cons_of_mem _ hx)
          have h1 := ih .expr (d + 1) s1 hd1 hs1 hw1
          rcases heq : parseStep fuel .expr (d + 1) s1 with e | ⟨n, s2⟩ <;> dsimp only
          · exact noNest_error_of h1 heq
          · obtain ⟨hscan1, hwf1⟩ := h1.2 _ _ heq
            rcases s2 with _ | ⟨t2, s3⟩ <;> dsimp only
            · exact noNest_error (by decide)
            · by_cases hcl : t2.typ = tParenClose
              · rw [if_pos hcl]
                apply noNest_ok
                · have hclose := parenScanOk_cons_close hcl hscan1
                  simpa using hclose
                · exact fun x hx => hwf1 x (List.mem_cons_of_mem _ hx)
              · rw [if_neg hcl]
                exact noNest_error (by decide)
        · rw [if_neg hop]
          exact parseConditionOrIn_inv d (t :: s1) hs hw

/-- C7 counterexample: an input whose parenthesized groups nest 11 deep
(the paren scan from depth 0 fails the 10-bound) on which convert fails
with the unsupported-operator error, not the NestingTooDeep error — the
claim's `for every input whose groups nest more than 10 deep, convert
fails with the NestingTooDeep error` is false as stated. -/
theorem nesting_eleven_other_error :
    (tokenize "foo (((((((((((a eq 1)))))))))))").map (parenScanOk 0) = .ok false
    ∧ FilterToSQL "foo (((((((((((a eq 1)))))))))))" =
      .error (.msg "unsupported operator: (") :=
  ⟨by decide, by decide⟩

/-- C7 (amended): the depth counter increments exactly when a parenthesized
group is entered and the limit is checked at every primary; an input whose
token-level paren scan stays within the limit never produces the
NestingTooDeep error (tokenizer output is always well-shaped, so this
covers every tokenizable input); and 11 directly nested groups do produce
it. -/
theorem nesting_depth_limit_amended :
    (∀ toks : List token, parenScanOk 0 toks = true → (∀ t ∈ toks, wfTok t) →
      parse toks ≠ .error (.msg msgNesting))
    ∧ (∀ (s : String) (toks : List token), tokenize s = .ok toks → ∀ t ∈ toks, wfTok t)
    ∧ (∀ (fuel d : Nat) (t : token) (s : List token),
        d ≤ maxNestingDepth → t.typ = tParenOpen →
        parsePrimary (fuel + 1) d (t :: s) =
          match parseStep fuel .expr (d + 1) s with
          | .error e => .error e
          | .ok (n, s2) =>
            match s2 with
            | t2 :: s3 =>
              if t2.typ = tParenClose then .ok (.paren n, s3)
              else .error (.msg msgMissingParen)
            | [] => .error (.msg msgMissingParen))
    ∧ FilterToSQL "(((((((((((a eq 1)))))))))))" = .error (.msg msgNesting) := by
  refine ⟨fun toks hscan hwf => ?_, fun s toks h => tokenize_wf h,
    fun fuel d t s hd ht => ?_, by decide⟩
  · have hinv := parseStep_inv (parseFuel toks) .expr 0 toks (by decide) hscan hwf
    unfold parse parseExpression
    rcases heq : parseStep (parseFuel toks) .expr 0 toks with e | ⟨n, rest⟩ <;>
      try dsimp only
    · intro h
      injection h with h2
      rw [h2] at heq
      exact hinv.1 heq
    · rcases rest with _ | ⟨t, rest2⟩ <;> dsimp only
      · intro h
        cases h
      · intro h
        injection h with h2
        injection h2 with h2
        exact ne_msgNesting_of_head "unexpected extra tokens: " t.val
          (by decide) (by decide) h2
  · unfold parsePrimary
    rw [parseStep.eq_def]
    dsimp only
    rw [if_neg (Nat.not_lt.mpr hd), if_pos ht]

/-- Witness for C7 at concrete inputs: a simple condition inside the bound
parses without the nesting error, a tokenized word is well-shaped, and the
group-entry equation evaluated at an unclosed single paren reproduces the
panic on that input. -/
theorem nesting_depth_limit_amended_witness :
    parse [⟨tIdentifier, "a"⟩, ⟨tOpEq, "eq"⟩, ⟨tNumber, "1"⟩] ≠ .error (.msg msgNesting)
    ∧ wfTok ⟨tIdentifier, "a"⟩
    ∧ parsePrimary 8 0 [⟨tParenOpen, "("⟩] = .error .panicked := by
  refine ⟨nesting_depth_limit_amended.1 _ (by decide) (by decide), ?_, ?_⟩
  · exact nesting_depth_limit_amended.2.1 "a" [⟨tIdentifier, "a"⟩] (by decide) _
      (by simp)
  · rw [nesting_depth_limit_amended.2.2.1 7 0 ⟨tParenOpen, "("⟩ [] (by decide) rfl]
    decide

/-! ## IN-list grammar equivalence (C8) -/

/-- The IN-list loop with accumulator prepends the accumulator to the
values collected from an empty start. -/
theorem inLoop_acc : ∀ (N : Nat) (s : List token), s.length ≤ N →
    ∀ (acc : List String),
      inLoop acc s = (inLoop [] s).map (fun p => (acc ++ p.1, p.2)) := by
  intro N
  induction N with
  | zero =>
    intro s hlen acc
    have hnil : s = [] := List.eq_nil_of_length_eq_zero (Nat.le_zero.mp hlen)
    subst hnil
    rw [inLoop, inLoop]
    rfl
  | succ N ihN =>
    intro s hlen acc
    rcases s with _ | ⟨t, rest⟩
    · rw [inLoop, inLoop]
      rfl
    · rw [inLoop, inLoop]
      by_cases hc : t.typ = tParenClose
      · rw [if_pos hc, if_pos hc]
        simp [Except.map]
      · rw [if_neg hc, if_neg hc]
        by_cases hv : isInValueTyp t.typ
        · rw [if_pos hv, if_pos hv]
          dsimp only
          rcases rest with _ | ⟨c, rest2⟩ <;> dsimp only
          · simp [Except.map]
          · by_cases hcm : c.typ = tComma
            · rw [if_pos hcm, if_pos hcm]
              have hlen2 : rest2.length ≤ N := by simp at hlen; omega
              rw [ihN rest2 hlen2 (acc ++ [SanitizeValue t.val]),
                ihN rest2 hlen2 ([] ++ [SanitizeValue t.val])]
              rcases inLoop [] rest2 with e | ⟨vals, r⟩ <;> simp [Except.map]
            · rw [if_neg hcm, if_neg hcm]
              simp [Except.map]
        · rw [if_neg hv, if_neg hv]
          rfl

/-- Success shape of the loop-and-close fragment. -/
theorem parseInAfterOpen_eq_ok {field : String} {s r : List token} {n : Node} :
    parseInAfterOpen field s = .ok (n, r) ↔
    ∃ vals c rr, inLoop [] s = .ok (vals, c :: rr) ∧ c.typ = tParenClose ∧
      n = .inn field vals ∧ r = rr := by
  constructor
  · intro h
    unfold parseInAfterOpen at h
    rcases heq : inLoop [] s with e | ⟨vals, rest⟩ <;> rw [heq] at h <;> dsimp only at h
    · cases h
    · rcases rest with _ | ⟨c, rr⟩ <;> dsimp only at h
      · cases h
      · by_cases hc : c.typ = tParenClose
        · rw [if_pos hc] at h
          injection h with h
          injection h with h1 h2
          exact ⟨vals, c, rr, rfl, hc, h1.symm, h2.symm⟩
        · rw [if_neg hc] at h
          cases h
  · rintro ⟨vals, c, rr, heq, hc, rfl, rfl⟩
    unfold parseInAfterOpen
    rw [heq]
    dsimp only
    rw [if_pos hc]

/-- One unfolding of the loop at a value token with empty accumulator. -/
theorem inLoop_cons_value {t : token} {rest : List token}
    (hncl : t.typ ≠ tParenClose) (hv : isInValueTyp t.typ = true) :
    inLoop [] (t :: rest) =
      match rest with
      | c :: rest2 =>
        if c.typ = tComma then inLoop [SanitizeValue t.val] rest2
        else .ok ([SanitizeValue t.val], c :: rest2)
      | [] => .ok ([SanitizeValue t.val], []) := by
  rw [inLoop, if_neg hncl, if_pos hv]
  dsimp only
  rcases rest with _ | ⟨c, rest2⟩ <;> simp only [List.nil_append]

/-- Equation lemma: the amended item grammar on the empty list. -/
theorem inGAI_nil : inGrammarAmendedItems [] = none := by
  rw [inGrammarAmendedItems.eq_def]

/-- Equation lemma: the amended item grammar on a cons. -/
theorem inGAI_cons (l : token) (rest : List token) :
    inGrammarAmendedItems (l :: rest) =
      (if isInValueTyp l.typ then
        match rest with
        | c :: rest2 =>
          if c.typ = tComma then
            match rest2 with
            | t :: r =>
              if t.typ = tParenClose then some ([l], r)
              else
                match inGrammarAmendedItems rest2 with
                | some (ls, r2) => some (l :: ls, r2)
                | none => none
            | [] => none
          else if c.typ = tParenClose then some ([l], rest2)
          else none
        | [] => none
      else none) := by
  rw [inGrammarAmendedItems.eq_def]

/-- The loop-and-close fragment agrees with the amended IN-item grammar:
grammar matches parse to exactly the sanitized values in order, and
grammar failures are parse failures (when the list does not open with an
immediate close, which the caller rejects as empty). -/
theorem inAfterOpen_items (field : String) : ∀ (N : Nat) (s : List token),
    s.length ≤ N →
    (∀ u rest, s = u :: rest → u.typ ≠ tParenClose) →
    (∀ lits r, inGrammarAmendedItems s = some (lits, r) →
      parseInAfterOpen field s =
        .ok (.inn field (lits.map (fun t => SanitizeValue t.val)), r))
    ∧ (inGrammarAmendedItems s = none →
      ∀ n r, parseInAfterOpen field s ≠ .ok (n, r)) := by
  intro N
  induction N with
  | zero =>
    intro s hlen hnc
    have hnil : s = [] := List.eq_nil_of_length_eq_zero (Nat.le_zero.mp hlen)
    subst hnil
    constructor
    · intro lits r h
      rw [inGAI_nil] at h
      cases h
    · intro _ n r h
      rw [parseInAfterOpen_eq_ok] at h
      obtain ⟨vals, c, rr, heq, _, _, _⟩ := h
      rw [inLoop] at heq
      cases heq
  | succ N ihN =>
    intro s hlen hnc
    rcases s with _ | ⟨l, rest⟩
    · constructor
      · intro lits r h
        rw [inGAI_nil] at h
        cases h
      · intro _ n r h
        rw [parseInAfterOpen_eq_ok] at h
        obtain ⟨vals, c, rr, heq, _, _, _⟩ := h
        rw [inLoop] at heq
        cases heq
    · have hncl : l.typ ≠ tParenClose := hnc l rest rfl
      by_cases hv : isInValueTyp l.typ = true
      · rcases rest with _ | ⟨c, rest2⟩
        · constructor
          · intro lits r h
            rw [inGAI_cons, if_pos hv] at h
            cases h
          · intro _ n r h
            rw [parseInAfterOpen_eq_ok] at h
            obtain ⟨vals, cc, rr, heq, _, _, _⟩ := h
            rw [inLoop_cons_value hncl hv] at heq
            injection heq with heq
            injection heq with h1 h2
            cases h2
        · by_cases hcm : c.typ = tComma
          · rcases rest2 with _ | ⟨u, r3⟩
            · constructor
              · intro lits r h
                rw [inGAI_cons, if_pos hv] at h
                try dsimp only at h
                rw [if_pos hcm] at h
                cases h
              · intro _ n r h
                rw [parseInAfterOpen_eq_ok] at h
                obtain ⟨vals, cc, rr, heq, _, _, _⟩ := h
                rw [inLoop_cons_value hncl hv] at heq
                try dsimp only at heq
                rw [if_pos hcm, inLoop_acc 0 [] le_rfl, inLoop] at heq
                cases heq
            · by_cases hu : u.typ = tParenClose
              · have hloop : inLoop [] (l :: c :: u :: r3) =
                    .ok ([SanitizeValue l.val], u :: r3) := by
                  rw [inLoop_cons_value hncl hv]
                  try dsimp only
                  rw [if_pos hcm, inLoop_acc (u :: r3).length (u :: r3) le_rfl, inLoop,
                    if_pos hu]
                  rfl
                have hgram : inGrammarAmendedItems (l :: c :: u :: r3) = some ([l], r3) := by
                  rw [inGAI_cons, if_pos hv]
                  try dsimp only
                  rw [if_pos hcm]
                  try dsimp only
                  rw [if_pos hu]
                constructor
                · intro lits r h
                  rw [hgram] at h
                  injection h with h
                  injection h with h1 h2
                  subst h1
                  subst h2
                  exact parseInAfterOpen_eq_ok.mpr
                    ⟨[SanitizeValue l.val], u, r3, hloop, hu, rfl, rfl⟩
                · intro hnone
                  rw [hgram] at hnone
                  cases hnone
              · have hnc3 : ∀ x rx, u :: r3 = x :: rx → x.typ ≠ tParenClose := by
                  intro x rx hxe
                  injection hxe with h1 h2
                  subst h1
                  exact hu
                have hlen3 : (u :: r3).length ≤ N := by
                  simp at hlen ⊢
                  omega
                have ihrec := ihN (u :: r3) hlen3 hnc3
                have hloopchain : inLoop [] (l :: c :: u :: r3) =
                    (inLoop [] (u :: r3)).map
                      (fun p => ([SanitizeValue l.val] ++ p.1, p.2)) := by
                  rw [inLoop_cons_value hncl hv]
                  try dsimp only
                  rw [if_pos hcm, inLoop_acc (u :: r3).length (u :: r3) le_rfl]
                have hgram : inGrammarAmendedItems (l :: c :: u :: r3) =
                    (match inGrammarAmendedItems (u :: r3) with
                      | some (ls, r2) => some (l :: ls, r2)
                      | none => none) := by
                  rw [inGAI_cons, if_pos hv]
                  try dsimp only
                  rw [if_pos hcm]
                  try dsimp only
                  rw [if_neg hu]
                constructor
                · intro lits r h
                  rw [hgram] at h
                  rcases hg : inGrammarAmendedItems (u :: r3) with _ | ⟨ls, r2⟩ <;>
                    rw [hg] at h <;> try dsimp only at h
                  · cases h
                  · injection h with h
                    injection h with h1 h2
                    subst h1
                    subst h2
                    have hsub := ihrec.1 ls r2 hg
                    rw [parseInAfterOpen_eq_ok] at hsub
                    obtain ⟨vals, cc, rr, heq2, hcc, hn2, hr2⟩ := hsub
                    have hvals : vals = ls.map (fun t => SanitizeValue t.val) := by
                      injection hn2 with h7 hv2
                      exact hv2.symm
                    subst hvals
                    refine parseInAfterOpen_eq_ok.mpr
                      ⟨SanitizeValue l.val :: ls.map (fun t => SanitizeValue t.val),
                        cc, rr, ?_, hcc, by simp, hr2⟩
                    rw [hloopchain, heq2]
                    rfl
                · intro hnone n r h
                  rw [hgram] at hnone
                  rcases hg : inGrammarAmendedItems (u :: r3) with _ | ⟨ls, r2⟩
                  · rw [parseInAfterOpen_eq_ok] at h
                    obtain ⟨vals, cc, rr, heq, hcc, _, _⟩ := h
                    rw [hloopchain] at heq
                    rcases hq : inLoop [] (u :: r3) with e | ⟨vals2, rr2⟩ <;>
                      rw [hq] at heq <;> dsimp only [Except.map] at heq
                    · cases heq
                    · injection heq with heq
                      injection heq with h1 h2
                      exact ihrec.2 hg (.inn field vals2) rr
                        (parseInAfterOpen_eq_ok.mpr ⟨vals2, cc, rr, by rw [hq, h2], hcc, rfl, rfl⟩)
                  · rw [hg] at hnone
                    cases hnone
          · by_cases hc2 : c.typ = tParenClose
            · have hloop : inLoop [] (l :: c :: rest2) =
                  .ok ([SanitizeValue l.val], c :: rest2) := by
                rw [inLoop_cons_value hncl hv]
                try dsimp only
                rw [if_neg hcm]
              have hgram : inGrammarAmendedItems (l :: c :: rest2) = some ([l], rest2) := by
                rw [inGAI_cons, if_pos hv]
                try dsimp only
                rw [if_neg hcm, if_pos hc2]
              constructor
              · intro lits r h
                rw [hgram] at h
                injection h with h
                injection h with h1 h2
                subst h1
                subst h2
                exact parseInAfterOpen_eq_ok.mpr
                  ⟨[SanitizeValue l.val], c, rest2, hloop, hc2, rfl, rfl⟩
              · intro hnone
                rw [hgram] at hnone
                cases hnone
            · constructor
              · intro lits r h
                rw [inGAI_cons, if_pos hv] at h
                try dsimp only at h
                rw [if_neg hcm, if_neg hc2] at h
                cases h
              · intro _ n r h
                rw [parseInAfterOpen_eq_ok] at h
                obtain ⟨vals, cc, rr, heq, hcc, _, _⟩ := h
                rw [inLoop_cons_value hncl hv] at heq
                try dsimp only at heq
                rw [if_neg hcm] at heq
                injection heq with heq
                injection heq with h1 h2
                injection h2 with h3 h4
                subst h3
                exact hc2 hcc
      · constructor
        · intro lits r h
          rw [inGAI_cons, if_neg hv] at h
          cases h
        · intro _ n r h
          rw [parseInAfterOpen_eq_ok] at h
          obtain ⟨vals, cc, rr, heq, _, _, _⟩ := h
          rw [inLoop, if_neg hncl, if_neg hv] at heq
          cases heq

/-- On an identifier field followed by IN, the condition parser is exactly
the IN branch. -/
theorem parseConditionOrIn_in_eq {fld tin : token} {s2 : List token}
    (hid : fld.typ = tIdentifier) (hin : tin.typ = tOpIn)
    (hres : IsReservedSQLKeyword (ToSnakeCase fld.val) = false) :
    parseConditionOrIn (fld :: tin :: s2) = parseInTail (ToSnakeCase fld.val) s2 := by
  unfold parseConditionOrIn
  dsimp only
  rw [if_pos hid, if_neg (by simp [hres]), if_pos hin]

/-- The IN branch agrees with the amended grammar `'(' literal
(',' literal)* ','? ')'`. -/
theorem parseInTail_grammar (field : String) (s2 : List token) :
    (∀ lits r, inGrammarAmended s2 = some (lits, r) →
      parseInTail field s2 =
        .ok (.inn field (lits.map (fun t => SanitizeValue t.val)), r))
    ∧ (inGrammarAmended s2 = none → ∀ n r, parseInTail field s2 ≠ .ok (n, r)) := by
  unfold parseInTail inGrammarAmended
  rcases s2 with _ | ⟨t, s3⟩ <;> dsimp only
  · constructor
    · intro lits r h
      cases h
    · intro _ n r h
      cases h
  · by_cases ho : t.typ = tParenOpen
    · simp only [if_pos ho]
      rcases s3 with _ | ⟨t2, s4⟩ <;> dsimp only
      · constructor
        · intro lits r h
          rw [inGAI_nil] at h
          cases h
        · intro _ n r h
          rw [parseInAfterOpen_eq_ok] at h
          obtain ⟨vals, c, rr, heq, _, _, _⟩ := h
          rw [inLoop] at heq
          cases heq
      · by_cases hc2 : t2.typ = tParenClose
        · simp only [if_pos hc2]
          constructor
          · intro lits r h
            rw [inGAI_cons, if_neg (by rw [hc2]; decide)] at h
            cases h
          · intro _ n r h
            cases h
        · simp only [if_neg hc2]
          exact inAfterOpen_items field (t2 :: s4).length (t2 :: s4) le_rfl
            (fun x rx hxe => by
              injection hxe with h1 h2
              subst h1
              exact hc2)
    · simp only [if_neg ho]
      constructor
      · intro lits r h
        cases h
      · intro _ n r h
        cases h

/-- Equation lemma: the value-position predicate on a cons. -/
theorem endsAtValuePos_cons (l : token) (rest : List token) :
    endsAtValuePos (l :: rest) =
      (if l.typ = tParenClose then false
      else if isInValueTyp l.typ then
        match rest with
        | c :: rest2 => if c.typ = tComma then endsAtValuePos rest2 else false
        | [] => false
      else false) := by
  rw [endsAtValuePos.eq_def]

/-- Equation lemma: the literal-then-bad-token predicate on a cons. -/
theorem litThenBad_cons (l : token) (rest : List token) :
    litThenBad (l :: rest) =
      (if l.typ = tParenClose then false
      else if isInValueTyp l.typ then
        match rest with
        | [] => true
        | u :: r2 =>
          if u.typ = tComma then litThenBad r2
          else if u.typ = tParenClose then false
          else true
      else false) := by
  rw [litThenBad.eq_def]

/-- When the tokens of the list end at a value position, the loop fails
with the unclosed-IN-list error, whatever has been accumulated. -/
theorem inLoop_unclosed : ∀ (N : Nat) (s : List token), s.length ≤ N →
    endsAtValuePos s = true → ∀ acc, inLoop acc s = .error (.msg msgUnclosedIn) := by
  intro N
  induction N with
  | zero =>
    intro s hlen he acc
    have hnil : s = [] := List.eq_nil_of_length_eq_zero (Nat.le_zero.mp hlen)
    subst hnil
    rw [inLoop]
  | succ N ihN =>
    intro s hlen he acc
    rcases s with _ | ⟨l, rest⟩
    · rw [inLoop]
    · rw [endsAtValuePos_cons] at he
      by_cases hcl : l.typ = tParenClose
      · rw [if_pos hcl] at he
        cases he
      · rw [if_neg hcl] at he
        by_cases hv : isInValueTyp l.typ = true
        · rw [if_pos hv] at he
          rcases rest with _ | ⟨c, r2⟩ <;> dsimp only at he
          · cases he
          · by_cases hcm : c.typ = tComma
            · rw [if_pos hcm] at he
              rw [inLoop, if_neg hcl, if_pos hv]
              dsimp only
              rw [if_pos hcm]
              exact ihN r2 (by simp at hlen; omega) he _
            · rw [if_neg hcm] at he
              cases he
        · rw [if_neg hv] at he
          cases he

/-- The loop-and-close fragment fails with the unclosed-IN-list error when
the tokens end at a value position. -/
theorem parseInAfterOpen_unclosed (field : String) (s : List token)
    (he : endsAtValuePos s = true) :
    parseInAfterOpen field s = .error (.msg msgUnclosedIn) := by
  unfold parseInAfterOpen
  rw [inLoop_unclosed s.length s le_rfl he []]

/-- The loop-and-close fragment fails with the missing-closing-parenthesis
error when some literal item is followed by nothing or by a token that is
neither a comma nor a closing paren. -/
theorem parseInAfterOpen_litThenBad (field : String) : ∀ (N : Nat) (s : List token),
    s.length ≤ N → litThenBad s = true →
    parseInAfterOpen field s = .error (.msg msgMissingParenIn) := by
  intro N
  induction N with
  | zero =>
    intro s hlen hb
    have hnil : s = [] := List.eq_nil_of_length_eq_zero (Nat.le_zero.mp hlen)
    subst hnil
    rw [litThenBad] at hb
    cases hb
  | succ N ihN =>
    intro s hlen hb
    rcases s with _ | ⟨l, rest⟩
    · rw [litThenBad] at hb
      cases hb
    · rw [litThenBad_cons] at hb
      by_cases hcl : l.typ = tParenClose
      · rw [if_pos hcl] at hb
        cases hb
      · rw [if_neg hcl] at hb
        by_cases hv : isInValueTyp l.typ = true
        · rw [if_pos hv] at hb
          rcases rest with _ | ⟨u, r2⟩ <;> dsimp only at hb
          · unfold parseInAfterOpen
            rw [inLoop_cons_value hcl hv]
          · by_cases hcm : u.typ = tComma
            · rw [if_pos hcm] at hb
              have ih2 := ihN r2 (by simp at hlen; omega) hb
              unfold parseInAfterOpen at ih2 ⊢
              rw [inLoop_cons_value hcl hv]
              dsimp only
              rw [if_pos hcm, inLoop_acc r2.length r2 le_rfl]
              rcases hq : inLoop [] r2 with e | ⟨vals, rr⟩ <;> rw [hq] at ih2 <;>
                dsimp only [Except.map] at ih2 ⊢
              · exact ih2
              · rcases rr with _ | ⟨cc, rr2⟩
                · rfl
                · dsimp only at ih2 ⊢
                  by_cases hcc : cc.typ = tParenClose
                  · rw [if_pos hcc] at ih2
                    cases ih2
                  · rw [if_neg hcc]
            · rw [if_neg hcm] at hb
              by_cases hcc : u.typ = tParenClose
              · rw [if_pos hcc] at hb
                cases hb
              · unfold parseInAfterOpen
                rw [inLoop_cons_value hcl hv]
                dsimp only
                rw [if_neg hcm]
                dsimp only
                rw [if_neg hcc]
        · rw [if_neg hv] at hb
          cases hb

/-- C8 counterexample: the parser accepts an IN list with a trailing comma,
which the claim's grammar `'(' literal (',' literal)* ')'` does not match;
and a list interrupted before its `)` fails with the
missing-closing-parenthesis message, not the UnclosedInList one. -/
theorem in_list_trailing_comma_accepted :
    FilterToSQL ("color in (" ++ qstr ++ "red" ++ qstr ++ ",)") =
      .ok ("color IN (" ++ qstr ++ "red" ++ qstr ++ ")")
    ∧ (tokenize ("color in (" ++ qstr ++ "red" ++ qstr ++ ",)")).map
        (fun toks => inGrammarStrict (toks.drop 2)) = .ok none
    ∧ FilterToSQL ("color in (" ++ qstr ++ "red" ++ qstr ++ " " ++
        qstr ++ "blue" ++ qstr ++ ")") = .error (.msg msgMissingParenIn)
    ∧ msgMissingParenIn ≠ msgUnclosedIn :=
  ⟨by decide, by decide, by decide, by decide⟩

/-- C8 (amended): after an identifier field and IN, the parser accepts
exactly the token sequences matching `'(' literal (',' literal)* ','? ')'`
(one optional trailing comma), producing the sanitized values in source
order; `()` fails with the at-least-one-value error; a list whose tokens
are exhausted at a value position — immediately after `(` or after a
comma — fails with UnclosedInList; a list in which some literal item is
followed by nothing, or by a token that is neither a comma nor `)`, fails
with the missing-closing-parenthesis error; and IN nodes render their
values comma-separated in order. -/
theorem in_list_acceptance_amended :
    (∀ (fld tin : token) (s2 : List token),
      fld.typ = tIdentifier → tin.typ = tOpIn →
      IsReservedSQLKeyword (ToSnakeCase fld.val) = false →
      (∀ lits r, inGrammarAmended s2 = some (lits, r) →
        parseConditionOrIn (fld :: tin :: s2) =
          .ok (.inn (ToSnakeCase fld.val) (lits.map (fun t => SanitizeValue t.val)), r))
      ∧ (inGrammarAmended s2 = none →
        ∀ n r, parseConditionOrIn (fld :: tin :: s2) ≠ .ok (n, r)))
    ∧ (∀ (fld tin po pc : token) (r : List token),
      fld.typ = tIdentifier → tin.typ = tOpIn →
      IsReservedSQLKeyword (ToSnakeCase fld.val) = false →
      po.typ = tParenOpen → pc.typ = tParenClose →
      parseConditionOrIn (fld :: tin :: po :: pc :: r) = .error (.msg msgEmptyIn))
    ∧ (∀ (fld tin po : token) (s2 : List token),
      fld.typ = tIdentifier → tin.typ = tOpIn →
      IsReservedSQLKeyword (ToSnakeCase fld.val) = false →
      po.typ = tParenOpen → endsAtValuePos s2 = true →
      parseConditionOrIn (fld :: tin :: po :: s2) = .error (.msg msgUnclosedIn))
    ∧ (∀ (fld tin po : token) (s2 : List token),
      fld.typ = tIdentifier → tin.typ = tOpIn →
      IsReservedSQLKeyword (ToSnakeCase fld.val) = false →
      po.typ = tParenOpen → litThenBad s2 = true →
      parseConditionOrIn (fld :: tin :: po :: s2) = .error (.msg msgMissingParenIn))
    ∧ (∀ (f : String) (vs : List String) (lvl : Nat),
      (Node.inn f vs).toSQL lvl = f ++ " IN (" ++ String.intercalate ", " vs ++ ")")
    ∧ FilterToSQL ("color in (" ++ qstr ++ "red" ++ qstr ++ ", " ++
        qstr ++ "blue" ++ qstr ++ ")") =
      .ok ("color IN (" ++ qstr ++ "red" ++ qstr ++ ", " ++
        qstr ++ "blue" ++ qstr ++ ")") := by
  refine ⟨fun fld tin s2 hid hin hres => ?_,
    fun fld tin po pc r hid hin hres hpo hpc => ?_,
    fun fld tin po s2 hid hin hres hpo he => ?_,
    fun fld tin po s2 hid hin hres hpo hb => ?_,
    fun f vs lvl => rfl, by decide⟩
  · rw [parseConditionOrIn_in_eq hid hin hres]
    exact parseInTail_grammar (ToSnakeCase fld.val) s2
  · rw [parseConditionOrIn_in_eq hid hin hres]
    unfold parseInTail
    dsimp only
    rw [if_pos hpo, if_pos hpc]
  · rw [parseConditionOrIn_in_eq hid hin hres]
    unfold parseInTail
    dsimp only
    rw [if_pos hpo]
    rcases s2 with _ | ⟨t2, s4⟩ <;> dsimp only
    · exact parseInAfterOpen_unclosed _ [] he
    · have ht2 : ¬ t2.typ = tParenClose := by
        intro hc
        rw [endsAtValuePos_cons, if_pos hc] at he
        cases he
      rw [if_neg ht2]
      exact parseInAfterOpen_unclosed _ (t2 :: s4) he
  · rw [parseConditionOrIn_in_eq hid hin hres]
    unfold parseInTail
    dsimp only
    rw [if_pos hpo]
    rcases s2 with _ | ⟨t2, s4⟩ <;> dsimp only
    · rw [litThenBad] at hb
      cases hb
    · have ht2 : ¬ t2.typ = tParenClose := by
        intro hc
        rw [litThenBad_cons, if_pos hc] at hb
        cases hb
      rw [if_neg ht2]
      exact parseInAfterOpen_litThenBad _ (t2 :: s4).length (t2 :: s4) le_rfl hb

/-- Witness for C8: a concrete single-value IN list accepted through the
grammar equivalence, the empty-list rejection, an exhaustion after a comma
yielding UnclosedInList, and a literal followed by nothing yielding the
missing-closing-parenthesis error, all at concrete tokens. -/
theorem in_list_acceptance_amended_witness :
    parseConditionOrIn [⟨tIdentifier, "color"⟩, ⟨tOpIn, "in"⟩, ⟨tParenOpen, "("⟩,
        ⟨tString, qstr ++ "red" ++ qstr⟩, ⟨tParenClose, ")"⟩] =
      .ok (.inn "color" [qstr ++ "red" ++ qstr], [])
    ∧ parseConditionOrIn [⟨tIdentifier, "color"⟩, ⟨tOpIn, "in"⟩, ⟨tParenOpen, "("⟩,
        ⟨tParenClose, ")"⟩] = .error (.msg msgEmptyIn)
    ∧ parseConditionOrIn [⟨tIdentifier, "color"⟩, ⟨tOpIn, "in"⟩, ⟨tParenOpen, "("⟩,
        ⟨tString, qstr ++ "red" ++ qstr⟩, ⟨tComma, ","⟩] = .error (.msg msgUnclosedIn)
    ∧ parseConditionOrIn [⟨tIdentifier, "color"⟩, ⟨tOpIn, "in"⟩, ⟨tParenOpen, "("⟩,
        ⟨tString, qstr ++ "red" ++ qstr⟩] = .error (.msg msgMissingParenIn) := by
  refine ⟨?_, ?_, ?_, ?_⟩
  · have h := (in_list_acceptance_amended.1 ⟨tIdentifier, "color"⟩ ⟨tOpIn, "in"⟩
      [⟨tParenOpen, "("⟩, ⟨tString, qstr ++ "red" ++ qstr⟩, ⟨tParenClose, ")"⟩]
      rfl rfl (by decide)).1
      [⟨tString, qstr ++ "red" ++ qstr⟩] [] (by decide)
    rw [h]
    decide
  · exact in_list_acceptance_amended.2.1 ⟨tIdentifier, "color"⟩ ⟨tOpIn, "in"⟩
      ⟨tParenOpen, "("⟩ ⟨tParenClose, ")"⟩ [] rfl rfl (by decide) rfl rfl
  · exact in_list_acceptance_amended.2.2.1 ⟨tIdentifier, "color"⟩ ⟨tOpIn, "in"⟩
      ⟨tParenOpen, "("⟩ [⟨tString, qstr ++ "red" ++ qstr⟩, ⟨tComma, ","⟩]
      rfl rfl (by decide) rfl (by decide)
  · exact in_list_acceptance_amended.2.2.2.1 ⟨tIdentifier, "color"⟩ ⟨tOpIn, "in"⟩
      ⟨tParenOpen, "("⟩ [⟨tString, qstr ++ "red" ++ qstr⟩]
      rfl rfl (by decide) rfl (by decide)
